import Mathlib

/-!
Verification of the wiztype/lexical block-editor core against its
natural-language specification.

The development contains three shallow embeddings:

* `Reconciler`: the diff-and-notify pass `reconcileRoot`
  (src/unnamed/part_005) over two immutable node maps and a dirty set.
* `EL`: the list-based node-tree model used by the Block/BlockText
  invariant layer (src/unnamed/part_001 and part_002).  Node children are
  kept as ordered key lists; the structural primitives (`splice`, `append`,
  `insertAfter`, `remove`) that live in the lexical core (outside the
  provided sources) are modelled from the specification, while the
  block-specific operations are translated from the sources.
* `BL`: the intrusive doubly-linked child-block list of
  `BlockNode.spliceChildBlocks` (src/unnamed/part_004), translated field
  write by field write, including the writes the source performs on the
  undeclared `__nextBlock` field and its call to the nonexistent method
  `getFirstBlockChild`.

Keys are natural numbers; object reference identity (for the reconciler)
is modelled by numeric object ids.
-/

namespace Reconciler

abbrev NodeKey := Nat

/-- Object reference of a node snapshot: reference equality in the source is
modelled as equality of numeric object ids. -/
abbrev NodeRef := Nat

/-- A version's node map: key to node-snapshot reference. -/
abbrev NodeMap := NodeKey → Option NodeRef

inductive NodeMutation
  | created
  | updated
  | destroyed
  deriving DecidableEq, Repr

/-- Translated from the `_setMutatedNode` closure of `reconcileRoot`
(src/unnamed/part_005, lines 44-75).  For `destroyed`, a key missing from the
previous map is silently skipped; for every other mutation type the key must
have a node in the next map, otherwise the `invariant` call throws, which is
modelled as `.error` (the commit aborts with an unrecoverable internal
error).  `setMutatedNode` of the lexical core only records the event, which
is modelled by consing the pair onto the accumulator. -/
def setMutatedNodeStep (prevNodeMap nextNodeMap : NodeMap)
    (acc : List (NodeKey × NodeMutation)) (nodeKey : NodeKey)
    (type : NodeMutation) : Except String (List (NodeKey × NodeMutation)) :=
  if type = NodeMutation.destroyed then
    match prevNodeMap nodeKey with
    | some _ => .ok ((nodeKey, NodeMutation.destroyed) :: acc)
    | none => .ok acc
  else
    match nextNodeMap nodeKey with
    | none => .error "reconcileNode: node does not exist in nodeMap"
    | some _ => .ok ((nodeKey, type) :: acc)

/-- Translated from the body of the two `forEach` loops of the partial
(non-full) reconcile path of `reconcileRoot` (src/unnamed/part_005, lines
95-122): a visited dirty key is recorded as `updated` exactly when it still
has a node in the next map and the node reference differs between the two
maps.  Invoking the key's updaters patches the host view and is not part of
the recorded mutation list. -/
def visitDirtyKey (prevNodeMap nextNodeMap : NodeMap)
    (acc : List (NodeKey × NodeMutation)) (nodeKey : NodeKey) :
    Except String (List (NodeKey × NodeMutation)) :=
  let prevNode := prevNodeMap nodeKey
  let nextNode := nextNodeMap nodeKey
  if nextNode ≠ none ∧ prevNode ≠ nextNode then
    setMutatedNodeStep prevNodeMap nextNodeMap acc nodeKey NodeMutation.updated
  else
    .ok acc

/-- Visits a list of dirty keys in order, threading the accumulated
mutation records. -/
def visitDirtyKeys (prevNodeMap nextNodeMap : NodeMap)
    (keys : List NodeKey) (acc : List (NodeKey × NodeMutation)) :
    Except String (List (NodeKey × NodeMutation)) :=
  match keys with
  | [] => .ok acc
  | k :: ks => do
    let acc1 ← visitDirtyKey prevNodeMap nextNodeMap acc k
    visitDirtyKeys prevNodeMap nextNodeMap ks acc1

/-- Translated from the partial rebuild branch of `reconcileRoot`
(src/unnamed/part_005): the dirty-element keys and then the dirty-leaf keys
are visited, and no other key is visited.  The result is the list of
mutation records produced by the pass. -/
def reconcileDirtyPath (prevNodeMap nextNodeMap : NodeMap)
    (dirtyElements dirtyLeaves : List NodeKey) :
    Except String (List (NodeKey × NodeMutation)) := do
  let acc1 ← visitDirtyKeys prevNodeMap nextNodeMap dirtyElements []
  visitDirtyKeys prevNodeMap nextNodeMap dirtyLeaves acc1

theorem visitDirtyKeys_spec (prevNodeMap nextNodeMap : NodeMap)
    (keys : List NodeKey) (acc out : List (NodeKey × NodeMutation))
    (h : visitDirtyKeys prevNodeMap nextNodeMap keys acc = .ok out) :
    ∀ p ∈ out, p ∈ acc ∨
      (p.1 ∈ keys ∧ p.2 = NodeMutation.updated ∧
        nextNodeMap p.1 ≠ none ∧ prevNodeMap p.1 ≠ nextNodeMap p.1) := by
  induction keys generalizing acc with
  | nil =>
    simp only [visitDirtyKeys] at h
    cases h
    intro p hp
    exact Or.inl hp
  | cons k ks ih =>
    simp only [visitDirtyKeys, bind, Except.bind] at h
    cases hstep : visitDirtyKey prevNodeMap nextNodeMap acc k with
    | error e => rw [hstep] at h; cases h
    | ok acc1 =>
      rw [hstep] at h
      intro p hp
      rcases ih acc1 h p hp with h1 | h1
      · -- p came from the single-key step
        unfold visitDirtyKey at hstep
        by_cases hcond : nextNodeMap k ≠ none ∧ prevNodeMap k ≠ nextNodeMap k
        · rw [if_pos hcond] at hstep
          unfold setMutatedNodeStep at hstep
          rw [if_neg (by decide : ¬ (NodeMutation.updated = NodeMutation.destroyed))] at hstep
          cases hnext : nextNodeMap k with
          | none => exact absurd hnext hcond.1
          | some r =>
            rw [hnext] at hstep
            cases hstep
            rcases List.mem_cons.mp h1 with h2 | h2
            · subst h2
              exact Or.inr ⟨List.mem_cons_self _ _, rfl, hcond.1, hcond.2⟩
            · exact Or.inl h2
        · rw [if_neg hcond] at hstep
          cases hstep
          exact Or.inl h1
      · exact Or.inr ⟨List.mem_cons_of_mem _ h1.1, h1.2⟩

theorem visitDirtyKeys_no_change (prevNodeMap nextNodeMap : NodeMap)
    (keys : List NodeKey) (acc : List (NodeKey × NodeMutation))
    (hsame : ∀ k, prevNodeMap k = nextNodeMap k) :
    visitDirtyKeys prevNodeMap nextNodeMap keys acc = .ok acc := by
  induction keys with
  | nil => rfl
  | cons k ks ih =>
    simp only [visitDirtyKeys, bind, Except.bind]
    have hvk : visitDirtyKey prevNodeMap nextNodeMap acc k = .ok acc := by
      unfold visitDirtyKey
      rw [if_neg]
      intro hcond
      exact hcond.2 (hsame k)
    rw [hvk]
    exact ih

/-- C5: on a partial (non-full) reconcile, `reconcileRoot` visits only
dirty-element or dirty-leaf keys; a visited key is recorded as `updated`
only when its node reference differs between the previous and next node
maps; and if no key differs by reference, the pass records zero `updated`
events. -/
theorem c5_reconcile_dirty_updates (prevNodeMap nextNodeMap : NodeMap)
    (dirtyElements dirtyLeaves : List NodeKey)
    (out : List (NodeKey × NodeMutation))
    (h : reconcileDirtyPath prevNodeMap nextNodeMap dirtyElements dirtyLeaves
        = .ok out) :
    (∀ p ∈ out, p.1 ∈ dirtyElements ∨ p.1 ∈ dirtyLeaves) ∧
    (∀ p ∈ out, p.2 = NodeMutation.updated ∧
      prevNodeMap p.1 ≠ nextNodeMap p.1) ∧
    ((∀ k, prevNodeMap k = nextNodeMap k) → out = []) := by
  simp only [reconcileDirtyPath, bind, Except.bind] at h
  cases hels : visitDirtyKeys prevNodeMap nextNodeMap dirtyElements [] with
  | error e => rw [hels] at h; cases h
  | ok acc1 =>
    rw [hels] at h
    refine ⟨?_, ?_, ?_⟩
    · intro p hp
      rcases visitDirtyKeys_spec _ _ _ _ _ h p hp with h1 | h1
      · rcases visitDirtyKeys_spec _ _ _ _ _ hels p h1 with h2 | h2
        · cases h2
        · exact Or.inl h2.1
      · exact Or.inr h1.1
    · intro p hp
      rcases visitDirtyKeys_spec _ _ _ _ _ h p hp with h1 | h1
      · rcases visitDirtyKeys_spec _ _ _ _ _ hels p h1 with h2 | h2
        · cases h2
        · exact ⟨h2.2.1, h2.2.2.2⟩
      · exact ⟨h1.2.1, h1.2.2.2⟩
    · intro hsame
      have hacc : acc1 = [] := by
        have h0 := visitDirtyKeys_no_change prevNodeMap nextNodeMap
          dirtyElements [] hsame
        rw [h0] at hels
        exact (Except.ok.inj hels).symm
      subst hacc
      have h2 : visitDirtyKeys prevNodeMap nextNodeMap dirtyLeaves []
          = .ok out := h
      rw [visitDirtyKeys_no_change prevNodeMap nextNodeMap dirtyLeaves []
        hsame] at h2
      exact (Except.ok.inj h2).symm

/-- Witness for C5 at a concrete input: two maps that differ at key 2,
dirty sets {1} and {2}; the pass records exactly the update of key 2. -/
theorem c5_reconcile_dirty_updates_witness :
    (∀ p ∈ [((2 : Nat), NodeMutation.updated)],
      p.1 ∈ [(1 : Nat)] ∨ p.1 ∈ [(2 : Nat)]) ∧
    (∀ p ∈ [((2 : Nat), NodeMutation.updated)],
      p.2 = NodeMutation.updated ∧
      (fun k => if k = 1 then some 10 else if k = 2 then some 20 else none) p.1
        ≠ (fun k => if k = 1 then some 10 else if k = 2 then some 21 else none) p.1) ∧
    ((∀ k, (fun k => if k = 1 then some 10 else if k = 2 then some 20 else none) k
        = (fun k => if k = 1 then some 10 else if k = 2 then some 21 else none) k)
      → [((2 : Nat), NodeMutation.updated)] = []) :=
  c5_reconcile_dirty_updates
    (fun k => if k = 1 then some 10 else if k = 2 then some 20 else none)
    (fun k => if k = 1 then some 10 else if k = 2 then some 21 else none)
    [1] [2] [(2, NodeMutation.updated)] rfl

/-- C6: recording a mutation of any type other than `destroyed` for a key
with no node in the next version's map makes `_setMutatedNode` signal the
fatal consistency invariant (the commit aborts as unrecoverable, modelled as
the `.error` result). -/
theorem c6_stale_dirty_key_error (prevNodeMap nextNodeMap : NodeMap)
    (acc : List (NodeKey × NodeMutation)) (nodeKey : NodeKey)
    (type : NodeMutation) (htype : type ≠ NodeMutation.destroyed)
    (hmissing : nextNodeMap nodeKey = none) :
    setMutatedNodeStep prevNodeMap nextNodeMap acc nodeKey type
      = .error "reconcileNode: node does not exist in nodeMap" := by
  unfold setMutatedNodeStep
  rw [if_neg htype, hmissing]

/-- Witness for C6 at a concrete input: recording `created` for key 5
against an empty next map errors. -/
theorem c6_stale_dirty_key_error_witness :
    setMutatedNodeStep (fun _ => some 1) (fun _ => none) [] 5
        NodeMutation.created
      = .error "reconcileNode: node does not exist in nodeMap" :=
  c6_stale_dirty_key_error (fun _ => some 1) (fun _ => none) [] 5
    NodeMutation.created (by decide) rfl

end Reconciler

namespace EL

abbrev Key := Nat

/-- Node variants of the tree: `RootNode`, `BlockNode`, `BlockTextNode`,
generic `ElementNode` and `TextNode`. -/
inductive Kind
  | root
  | block
  | blockText
  | element
  | text
  deriving DecidableEq, Repr

/-- The block types of src/unnamed/part_001 (`blockTypes`). -/
inductive BlockType
  | paragraph
  | h1
  | h2
  | h3
  | h4
  | h5
  | h6
  | bulleted_list_item
  | numbered_list_item
  | to_do
  deriving DecidableEq, Repr

/-- A node of the list-based model: the intrusive sibling links of the source
are represented by the ordered `children` list of the parent. -/
structure Node where
  kind : Kind
  blockType : BlockType := BlockType.paragraph
  children : List Key := []
  parent : Option Key := none
  deriving DecidableEq, Repr

/-- A version of the tree: key to node. -/
abbrev State := Key → Option Node

def setNode (st : State) (k : Key) (nd : Node) : State :=
  fun j => if j = k then some nd else st j

def mapNode (st : State) (k : Key) (f : Node → Node) : State :=
  fun j => if j = k then (st j).map f else st j

def childrenOf (st : State) (k : Key) : List Key :=
  match st k with
  | some nd => nd.children
  | none => []

/-- Instance test `$isElementNode`: Root, Block, BlockText and generic
elements are all `ElementNode` subclasses; text nodes are not. -/
def isElementKind : Kind → Bool
  | Kind.text => false
  | _ => true

/-- Index of the first occurrence of a key in a child list
(`getIndexWithinParent`). -/
def idxOf (k : Key) : List Key → Nat
  | [] => 0
  | a :: as => if a = k then 0 else idxOf k as + 1

/-- The element immediately before the first occurrence of `k`
(`getPreviousSibling` read off the ordered child list). -/
def elemBefore (k : Key) : List Key → Option Key
  | [] => none
  | a :: as => if a = k then none else go a as
where
  go (prev : Key) : List Key → Option Key
    | [] => none
    | a :: as => if a = k then some prev else go a as

/-- Modelled from the spec (§4.2): a node already present elsewhere is first
unlinked from its old position before being relinked; `removeFromParent`
erases the key from its parent's child list and clears the parent link.
The function itself lives in the lexical core (LexicalUtils), outside the
provided sources. -/
def removeFromParent (st : State) (k : Key) : State :=
  match st k with
  | none => st
  | some nd =>
    match nd.parent with
    | none => st
    | some p =>
      let st1 := mapNode st p (fun pn => { pn with children := pn.children.erase k })
      mapNode st1 k (fun x => { x with parent := none })

/-- Modelled from the spec (§4.2): `splice(parent, start, deleteCount,
nodesToInsert)` removes `deleteCount` children at ordinal `start`, inserts
`nodesToInsert` there, after first unlinking the inserted nodes from their
old positions.  Removed children keep their map entry but lose their parent
link.  `ElementNode.splice` lives in the lexical core, outside the provided
sources. -/
def spliceNode (st : State) (p : Key) (start deleteCount : Nat)
    (ks : List Key) : State :=
  let st1 := ks.foldl removeFromParent st
  match st1 p with
  | none => st1
  | some pn =>
    let cs := pn.children
    let removed := (cs.drop start).take deleteCount
    let st2 := removed.foldl
      (fun s k => mapNode s k (fun x => { x with parent := none })) st1
    let st3 := mapNode st2 p
      (fun x => { x with children := cs.take start ++ ks ++ cs.drop (start + deleteCount) })
    ks.foldl (fun s k => mapNode s k (fun x => { x with parent := some p })) st3

/-- Modelled from the spec (§4.2): `append` is splice at the end with no
deletions. -/
def appendNode (st : State) (p : Key) (ks : List Key) : State :=
  spliceNode st p (childrenOf st p).length 0 ks

/-- Modelled from the spec (§4.2): the generic `LexicalNode.insertAfter` is
a splice into the parent of the reference node, right after it. -/
def insertAfterNode (st : State) (ref k : Key) : Except String State :=
  match st ref with
  | none => .error "insertAfter: node not found"
  | some nd =>
    match nd.parent with
    | none => .error "insertAfter: expected node to have a parent"
    | some p => .ok (spliceNode st p (idxOf ref (childrenOf st p) + 1) 0 [k])

/-- Policy `canBeEmpty`: `BlockNode.canBeEmpty()` returns `false`
(src/unnamed/part_001); every other node kind keeps the `ElementNode`
default of `true`. -/
def canBeEmptyKind : Kind → Bool
  | Kind.block => false
  | _ => true

/-- Modelled from the spec (§4.2, §4.3): `remove` deletes the node from its
parent via splice; if the parent becomes childless, cannot be empty by
policy, and is not the document root, the parent itself is removed
(cascading).  The fuel bounds the (in practice finite) cascade. -/
def removeNode (st : State) (k : Key) : Nat → State
  | 0 => st
  | fuel + 1 =>
    match st k with
    | none => st
    | some nd =>
      match nd.parent with
      | none => st
      | some p =>
        let st1 := spliceNode st p (idxOf k (childrenOf st p)) 1 []
        match st1 p with
        | none => st1
        | some pn =>
          if pn.children.isEmpty ∧ ¬ canBeEmptyKind pn.kind ∧ pn.kind ≠ Kind.root
          then removeNode st1 p fuel
          else st1

theorem mapNode_self (st : State) (k : Key) (f : Node → Node) :
    mapNode st k f k = (st k).map f := by
  simp [mapNode]

theorem mapNode_ne (st : State) (k j : Key) (f : Node → Node) (h : j ≠ k) :
    mapNode st k f j = st j := by
  simp [mapNode, h]

theorem setNode_self (st : State) (k : Key) (nd : Node) :
    setNode st k nd k = some nd := by
  simp [setNode]

theorem setNode_ne (st : State) (k j : Key) (nd : Node) (h : j ≠ k) :
    setNode st k nd j = st j := by
  simp [setNode, h]

end EL

namespace EL

/-- Translated from `getNewBlockType` (src/unnamed/part_001, lines 199-208):
list block types survive a split, every other type resets to paragraph. -/
def getNewBlockType : BlockType → BlockType
  | BlockType.bulleted_list_item => BlockType.bulleted_list_item
  | BlockType.numbered_list_item => BlockType.numbered_list_item
  | BlockType.to_do => BlockType.to_do
  | _ => BlockType.paragraph

/-- Translated from `BlockNode.getChildBlocks` (src/unnamed/part_001, lines
76-86): the children that are not the BlockText, in order. -/
def getChildBlocks (st : State) (k : Key) : List Key :=
  (childrenOf st k).filter fun c =>
    match st c with
    | some nd => nd.kind ≠ Kind.blockText
    | none => false

/-- Siblings after a node, in order (`getNextSiblings` of the lexical
core, read off the ordered child list). -/
def nextSiblingsOf (st : State) (k : Key) : List Key :=
  match st k with
  | none => []
  | some nd =>
    match nd.parent with
    | none => []
    | some p => (childrenOf st p).drop (idxOf k (childrenOf st p) + 1)

/-- Translated from `BlockTextNode.insertAfter` (src/unnamed/part_001, lines
141-160).  `b` is the BlockText receiving the call, `t` the node to insert,
`newKey` the fresh key that `$createBlockNode` assigns to the new block.
When `t` is a BlockText, a new block of type `getNewBlockType(parent)` is
created, `t` and all of `b`'s following siblings are appended to it, and it
is inserted after the parent block. -/
def blockTextInsertAfter (st : State) (b t newKey : Key) :
    Except String (State × Key) :=
  match st b with
  | none => .error "insertAfter: node not found"
  | some bnd =>
    match bnd.parent with
    | none => .error "insertAfter: expected node to have a parent"
    | some p =>
      match st p with
      | none => .error "insertAfter: node not found"
      | some pnd =>
        if pnd.kind ≠ Kind.block then
          .error "insertAfter: block node is not parent of blockText node"
        else
          match st t with
          | none => .error "insertAfter: node not found"
          | some tnd =>
            if tnd.kind = Kind.blockText then
              let st1 := setNode st newKey
                { kind := Kind.block,
                  blockType := getNewBlockType pnd.blockType,
                  children := [], parent := none }
              let siblings := nextSiblingsOf st1 b
              let st2 := appendNode st1 newKey (t :: siblings)
              match insertAfterNode st2 p newKey with
              | .error e => .error e
              | .ok st3 => .ok (st3, newKey)
            else
              match insertAfterNode st b t with
              | .error e => .error e
              | .ok st3 => .ok (st3, t)

/-- Translated from the `BlockNode` transform of `registerBlock`
(src/unnamed/part_002, lines 353-367): when a block's first child is not a
BlockText, the children are merged into a previous sibling block (which then
absorbs them and the block removes itself), or spliced into the parent when
the previous sibling is a non-block element; otherwise nothing happens. -/
def blockTransform (st : State) (blockNode : Key) (fuel : Nat) : State :=
  match st blockNode with
  | none => st
  | some bnd =>
    match bnd.children.head? with
    | none => st
    | some firstChild =>
      match st firstChild with
      | none => st
      | some fc =>
        if fc.kind = Kind.blockText then st
        else
          let children := bnd.children
          match bnd.parent with
          | none => st
          | some par =>
            match st par with
            | none => st
            | some parn =>
              match elemBefore blockNode parn.children with
              | none => st
              | some pv =>
                match st pv with
                | none => st
                | some pvn =>
                  if pvn.kind = Kind.block then
                    let st1 := appendNode st pv children
                    removeNode st1 blockNode fuel
                  else if isElementKind pvn.kind then
                    spliceNode st par (idxOf blockNode parn.children) 1 children
                  else st

/-- Translated from `$getNearestBlockAncestorOrThrow` (src/unnamed/part_002,
lines 267-279): `$findMatchingParent` starting from the node itself, looking
for a `BlockNode`.  The fuel bounds the parent walk. -/
def nearestBlockAncestor (st : State) (k : Key) : Nat → Option Key
  | 0 => none
  | fuel + 1 =>
    match st k with
    | none => none
    | some nd =>
      if nd.kind = Kind.block then some k
      else
        match nd.parent with
        | none => none
        | some p => nearestBlockAncestor st p fuel

/-- Translated from the `while` loop of `$getBlockDepth` (src/unnamed/
part_002, lines 293-304): walk the parent chain from the block's parent,
counting blocks, stopping at the root or at a missing link.  The fuel bounds
the walk; exhaustion yields `none` (the source would loop forever on a
cyclic parent chain). -/
def blockDepthLoop (st : State) : Option Key → Nat → Nat → Option Nat
  | none, _, acc => some acc
  | some _, 0, _ => none
  | some k, fuel + 1, acc =>
    match st k with
    | none => some acc
    | some nd =>
      if nd.kind = Kind.root then some acc
      else blockDepthLoop st nd.parent fuel
        (if nd.kind = Kind.block then acc + 1 else acc)

/-- Depth of a block (`$getBlockDepth` applied to a node whose nearest block
ancestor is itself). -/
def getBlockDepthOf (st : State) (k : Key) (fuel : Nat) : Option Nat :=
  match st k with
  | none => none
  | some nd => blockDepthLoop st nd.parent fuel 0

/-- Effectful map over a list in the `Except` monad, with explicit
recursion for easy unfolding. -/
def mapExcept {α β : Type} (f : α → Except String β) : List α → Except String (List β)
  | [] => .ok []
  | a :: as => do
    let b ← f a
    let bs ← mapExcept f as
    .ok (b :: bs)

/-- First-occurrence deduplication (the `alreadyHandled` set of
`handleIndentAndOutdent`). -/
def dedupKeys (ks : List Key) : List Key :=
  go [] ks
where
  go (acc : List Key) : List Key → List Key
    | [] => acc
    | k :: rest => if k ∈ acc then go acc rest else go (acc ++ [k]) rest

/-- Insertion of an element into a list sorted by a boolean comparison. -/
def insertSortedBy {α : Type} (le : α → α → Bool) (a : α) : List α → List α
  | [] => [a]
  | b :: bs => if le a b then a :: b :: bs else b :: insertSortedBy le a bs

/-- Insertion sort by a boolean comparison: models `Array.prototype.sort`
with a comparator consistent with `le` (the claim does not rely on
stability). -/
def sortByBool {α : Type} (le : α → α → Bool) : List α → List α
  | [] => []
  | a :: as => insertSortedBy le a (sortByBool le as)

/-- Instance test `$isBlockNode` keyed on the map. -/
def isBlockKey (st : State) (k : Key) : Bool :=
  match st k with
  | some nd => nd.kind = Kind.block
  | none => false

/-- Translated from `handleIndentAndOutdent` (src/unnamed/part_002, lines
306-342).  `selected` is the node list of the current range selection
(`selection.getNodes()`); the function filters out block nodes themselves,
maps the rest to their nearest block ancestors (throwing when there is
none), deduplicates by block key (`canIndent` is the `ElementNode` default
`true`, which `BlockNode` does not override), pairs each block with its
nesting depth, sorts ascending by depth for indent and descending for
outdent, then performs `op` on each block in that order.  The result is the
final state, the handled flag `alreadyHandled.size > 0`, and the ordered
list of performed (block, depth) operations. -/
def handleIndentAndOutdent (st : State) (selected : List Key)
    (indent : Bool) (op : State → Key → State) (fuel : Nat) :
    Except String (State × Bool × List (Key × Nat)) := do
  let nonBlock := selected.filter fun k => ¬ isBlockKey st k
  let ancestors ← mapExcept (fun k =>
    match nearestBlockAncestor st k fuel with
    | some b => .ok b
    | none => .error "Expected node to have closest block node.") nonBlock
  let deduped := dedupKeys ancestors
  let withDepth ← mapExcept (fun b =>
    match getBlockDepthOf st b fuel with
    | some d => .ok (b, d)
    | none => .error "Expected node to have closest block node.") deduped
  let sorted := sortByBool
    (fun a b => if indent then a.2 ≤ b.2 else b.2 ≤ a.2) withDepth
  let finalState := sorted.foldl (fun s bd => op s bd.1) st
  .ok (finalState, !deduped.isEmpty, sorted)

/-- Translated from the `INDENT_CONTENT_COMMAND` per-block operation
(src/unnamed/part_002, lines 437-442): if the previous sibling is a block,
the node and its child blocks are appended to it; otherwise nothing
happens. -/
def indentPerform (st : State) (node : Key) : State :=
  match st node with
  | none => st
  | some nd =>
    match nd.parent with
    | none => st
    | some p =>
      match elemBefore node (childrenOf st p) with
      | none => st
      | some pv =>
        match st pv with
        | none => st
        | some pvn =>
          if pvn.kind ≠ Kind.block then st
          else
            let childBlocks := getChildBlocks st node
            appendNode st pv (node :: childBlocks)

/-- The full indent command: `handleIndentAndOutdent` specialised to the
indent operation, as registered for `INDENT_CONTENT_COMMAND`. -/
def indentCommand (st : State) (selected : List Key) (fuel : Nat) :
    Except String (State × Bool × List (Key × Nat)) :=
  handleIndentAndOutdent st selected true (fun s k => indentPerform s k) fuel

inductive BackspaceOutcome
  | notHandled
  | demotedToParagraph
  | dispatchedOutdent
  deriving DecidableEq, Repr

/-- Translated from the `KEY_BACKSPACE_COMMAND` handler of `registerBlock`
(src/unnamed/part_002, lines 368-399).  The selection guards come first;
then, for the nearest block ancestor of the anchor node: a non-paragraph
block type is demoted to paragraph (handled, no outdent); a paragraph at
nonzero depth dispatches `OUTDENT_CONTENT_COMMAND`; otherwise the handler
returns false and the host default backspace runs. -/
def backspaceHandler (st : State) (isRange isCollapsed : Bool)
    (anchorKey : Key) (anchorOffset : Nat) (fuel : Nat) :
    Except String (BackspaceOutcome × State) :=
  if ¬ isRange ∨ ¬ isCollapsed ∨ anchorOffset ≠ 0 then
    .ok (BackspaceOutcome.notHandled, st)
  else
    match nearestBlockAncestor st anchorKey fuel with
    | none => .error "Expected node to have closest block node."
    | some block =>
      match st block with
      | none => .ok (BackspaceOutcome.notHandled, st)
      | some bnd =>
        if bnd.kind = Kind.block then
          if bnd.blockType ≠ BlockType.paragraph then
            .ok (BackspaceOutcome.demotedToParagraph,
              mapNode st block (fun x => { x with blockType := BlockType.paragraph }))
          else
            match blockDepthLoop st bnd.parent fuel 0 with
            | none => .error "depth walk exhausted"
            | some depth =>
              if depth ≠ 0 then .ok (BackspaceOutcome.dispatchedOutdent, st)
              else .ok (BackspaceOutcome.notHandled, st)
        else .ok (BackspaceOutcome.notHandled, st)

end EL

namespace EL

theorem foldMapNode_mem {f : Node → Node} (ks : List Key) (st : State)
    (hnodup : ks.Nodup) :
    (∀ k ∈ ks, (ks.foldl (fun s j => mapNode s j f) st) k = (st k).map f) ∧
    (∀ j, j ∉ ks → (ks.foldl (fun s j => mapNode s j f) st) j = st j) := by
  induction ks generalizing st with
  | nil => exact ⟨fun k hk => absurd hk (List.not_mem_nil k), fun j _ => rfl⟩
  | cons k ks ih =>
    have hnodup2 := (List.nodup_cons.mp hnodup).2
    have hknot := (List.nodup_cons.mp hnodup).1
    have ihh := ih (mapNode st k f) hnodup2
    constructor
    · intro x hx
      rcases List.mem_cons.mp hx with h1 | h1
      · subst h1
        have := ihh.2 x hknot
        simp only [List.foldl_cons]
        rw [this, mapNode_self]
      · have := ihh.1 x h1
        simp only [List.foldl_cons]
        rw [this, mapNode_ne]
        intro hxx
        exact hknot (hxx ▸ h1)
    · intro j hj
      have hj1 : j ≠ k := fun h => hj (h ▸ List.mem_cons_self k ks)
      have hj2 : j ∉ ks := fun h => hj (List.mem_cons_of_mem k h)
      simp only [List.foldl_cons]
      rw [ihh.2 j hj2, mapNode_ne _ _ _ _ hj1]

theorem foldRemove_spec (ks : List Key) (st : State) (p : Key) (pn : Node)
    (hp : st p = some pn) (hnodup : ks.Nodup) (hpk : p ∉ ks)
    (hmem : ∀ k ∈ ks, ∃ nd, st k = some nd ∧ nd.parent = some p) :
    (ks.foldl removeFromParent st) p
        = some { pn with children := ks.foldl (fun l k => l.erase k) pn.children } ∧
    (∀ k ∈ ks, (ks.foldl removeFromParent st) k
        = (st k).map (fun nd => { nd with parent := none })) ∧
    (∀ j, j ≠ p → j ∉ ks → (ks.foldl removeFromParent st) j = st j) := by
  induction ks generalizing st pn with
  | nil =>
    refine ⟨?_, fun k hk => absurd hk (List.not_mem_nil k), fun j _ _ => rfl⟩
    simpa using hp
  | cons k ks ih =>
    have hknotp : k ≠ p := fun h => hpk (h ▸ List.mem_cons_self k ks)
    have hknot := (List.nodup_cons.mp hnodup).1
    have hnodup2 := (List.nodup_cons.mp hnodup).2
    obtain ⟨nd, hnd, hndp⟩ := hmem k (List.mem_cons_self k ks)
    have hstep : removeFromParent st k
        = mapNode (mapNode st p (fun pn => { pn with children := pn.children.erase k}))
            k (fun x => { x with parent := none }) := by
      simp only [removeFromParent, hnd, hndp]
    set st1 := removeFromParent st k with hst1
    have h1p : st1 p = some { pn with children := pn.children.erase k } := by
      rw [hstep, mapNode_ne _ _ _ _ (Ne.symm hknotp), mapNode_self, hp]
      rfl
    have h1k : st1 k = some { nd with parent := none } := by
      rw [hstep, mapNode_self, mapNode_ne _ _ _ _ hknotp, hnd]
      rfl
    have h1j : ∀ j, j ≠ p → j ≠ k → st1 j = st j := by
      intro j hjp hjk
      rw [hstep, mapNode_ne _ _ _ _ hjk, mapNode_ne _ _ _ _ hjp]
    have hmem2 : ∀ x ∈ ks, ∃ nd, st1 x = some nd ∧ nd.parent = some p := by
      intro x hx
      obtain ⟨nd2, hnd2, hnd2p⟩ := hmem x (List.mem_cons_of_mem k hx)
      refine ⟨nd2, ?_, hnd2p⟩
      rw [h1j x (fun h => hpk (h ▸ List.mem_cons_of_mem k hx))
        (fun h => hknot (h ▸ hx))]
      exact hnd2
    have hpk2 : p ∉ ks := fun h => hpk (List.mem_cons_of_mem k h)
    have ihh := ih st1 { pn with children := pn.children.erase k } h1p hnodup2
      hpk2 hmem2
    refine ⟨?_, ?_, ?_⟩
    · simpa using ihh.1
    · intro x hx
      rcases List.mem_cons.mp hx with h1 | h1
      · subst h1
        have := ihh.2.2 x hknotp hknot
        simp only [List.foldl_cons]
        rw [this, h1k, hnd]
        rfl
      · have := ihh.2.1 x h1
        simp only [List.foldl_cons]
        rw [this, h1j x (fun h => hpk (h ▸ List.mem_cons_of_mem k h1))
          (fun h => hknot (h ▸ h1))]
    · intro j hjp hj
      have hj1 : j ≠ k := fun h => hj (h ▸ List.mem_cons_self k ks)
      have hj2 : j ∉ ks := fun h => hj (List.mem_cons_of_mem k h)
      simp only [List.foldl_cons]
      rw [ihh.2.2 j hjp hj2, h1j j hjp hj1]

theorem foldErase_append (v X : List Key) (hnodup : v.Nodup)
    (hdisj : ∀ k ∈ v, k ∉ X) :
    v.foldl (fun l k => l.erase k) (X ++ v) = X := by
  induction v generalizing X with
  | nil => simp
  | cons k rest ih =>
    have hk : (X ++ k :: rest).erase k = X ++ rest := by
      rw [List.erase_append_right _ (hdisj k (List.mem_cons_self k rest))]
      simp
    simp only [List.foldl_cons]
    rw [hk]
    exact ih X (List.nodup_cons.mp hnodup).2
      (fun x hx => hdisj x (List.mem_cons_of_mem k hx))

theorem foldErase_cons_of_ne (v : List Key) (a : Key) (l : List Key)
    (h : ∀ k ∈ v, k ≠ a) :
    v.foldl (fun l k => l.erase k) (a :: l)
      = a :: v.foldl (fun l k => l.erase k) l := by
  induction v generalizing l with
  | nil => rfl
  | cons k rest ih =>
    simp only [List.foldl_cons]
    rw [List.erase_cons_tail]
    · exact ih (l.erase k) (fun x hx => h x (List.mem_cons_of_mem k hx))
    · simp only [beq_iff_eq]
      exact fun hh => (h k (List.mem_cons_self k rest)) hh.symm

theorem foldErase_filter (cs : List Key) (hnodup : cs.Nodup) (p : Key → Bool) :
    (cs.filter p).foldl (fun l k => l.erase k) cs
      = cs.filter (fun x => ! p x) := by
  induction cs with
  | nil => rfl
  | cons a rest ih =>
    have hanot := (List.nodup_cons.mp hnodup).1
    have hnodup2 := (List.nodup_cons.mp hnodup).2
    by_cases hpa : p a
    · rw [List.filter_cons_of_pos hpa]
      simp only [List.foldl_cons, List.erase_cons_head]
      rw [ih hnodup2, List.filter_cons_of_neg (by simp [hpa])]
    · rw [List.filter_cons_of_neg (by simpa using hpa)]
      rw [foldErase_cons_of_ne _ a rest]
      · rw [ih hnodup2, List.filter_cons_of_pos (by simpa using hpa)]
      · intro k hk
        exact fun h => hanot (h ▸ List.mem_of_mem_filter hk)

theorem idxOf_append (u : List Key) (k : Key) (v : List Key) (hk : k ∉ u) :
    idxOf k (u ++ k :: v) = u.length := by
  induction u with
  | nil => simp [idxOf]
  | cons a rest ih =>
    have ha : a ≠ k := fun h => hk (h ▸ List.mem_cons_self a rest)
    simp only [List.cons_append, idxOf, if_neg ha]
    show idxOf k (rest ++ k :: v) + 1 = rest.length + 1
    rw [ih (fun h => hk (List.mem_cons_of_mem a h))]

theorem take_append_cons (u : List Key) (a : Key) (v : List Key) :
    (u ++ a :: v).take (u.length + 1) = u ++ [a] := by
  have : u ++ a :: v = (u ++ [a]) ++ v := by simp
  rw [this]
  have hlen : u.length + 1 = (u ++ [a]).length := by simp
  rw [hlen, List.take_left]

theorem drop_append_cons (u : List Key) (a : Key) (v : List Key) :
    (u ++ a :: v).drop (u.length + 1) = v := by
  have : u ++ a :: v = (u ++ [a]) ++ v := by simp
  rw [this]
  have hlen : u.length + 1 = (u ++ [a]).length := by simp
  rw [hlen, List.drop_left]

theorem elemBefore_go_middle (k pv : Key) (v : List Key) (u : List Key)
    (prev : Key) (hku : k ∉ u) (hkpv : k ≠ pv) :
    elemBefore.go k prev (u ++ pv :: k :: v) = some pv := by
  induction u generalizing prev with
  | nil =>
    simp only [List.nil_append, elemBefore.go, if_neg (Ne.symm hkpv)]
    simp [elemBefore.go]
  | cons b rest ih =>
    have hb : b ≠ k := fun h => hku (h ▸ List.mem_cons_self b rest)
    simp only [List.cons_append, elemBefore.go, if_neg hb]
    exact ih b (fun h => hku (List.mem_cons_of_mem b h))

theorem elemBefore_append (u : List Key) (pv k : Key) (v : List Key)
    (hku : k ∉ u) (hkpv : k ≠ pv) :
    elemBefore k (u ++ pv :: k :: v) = some pv := by
  cases u with
  | nil =>
    simp only [List.nil_append, elemBefore, if_neg (Ne.symm hkpv)]
    simp [elemBefore.go]
  | cons a rest =>
    have ha : a ≠ k := fun h => hku (h ▸ List.mem_cons_self a rest)
    simp only [List.cons_append, elemBefore, if_neg ha]
    exact elemBefore_go_middle k pv v rest a
      (fun h => hku (List.mem_cons_of_mem a h)) hkpv

end EL

/-- Concrete tree for the C10 witness: root 0, block 1 of type `to_do` at
depth 0, its BlockText 2, a text node 3 carrying the caret. -/
def c10State : EL.State := fun k =>
  if k = 0 then some { kind := EL.Kind.root, children := [1] }
  else if k = 1 then
    some { kind := EL.Kind.block, blockType := EL.BlockType.to_do,
           children := [2], parent := some 0 }
  else if k = 2 then
    some { kind := EL.Kind.blockText, children := [3], parent := some 1 }
  else if k = 3 then some { kind := EL.Kind.text, parent := some 2 }
  else none

/-- C10: with a collapsed range selection at anchor offset 0, the backspace
handler demotes a non-paragraph block to paragraph without outdenting in the
same keystroke; dispatches the outdent command when the block is already a
paragraph at nonzero depth; and otherwise returns false so the host default
backspace behavior runs. -/
theorem c10_backspace_policy (st : EL.State) (anchorKey : EL.Key)
    (fuel : Nat) (block : EL.Key) (bnd : EL.Node) (depth : Nat)
    (hanc : EL.nearestBlockAncestor st anchorKey fuel = some block)
    (hblock : st block = some bnd)
    (hkind : bnd.kind = EL.Kind.block)
    (hdepth : EL.blockDepthLoop st bnd.parent fuel 0 = some depth) :
    (bnd.blockType ≠ EL.BlockType.paragraph →
      EL.backspaceHandler st true true anchorKey 0 fuel
        = .ok (EL.BackspaceOutcome.demotedToParagraph,
            EL.mapNode st block
              (fun x => { x with blockType := EL.BlockType.paragraph }))) ∧
    (bnd.blockType = EL.BlockType.paragraph → depth ≠ 0 →
      EL.backspaceHandler st true true anchorKey 0 fuel
        = .ok (EL.BackspaceOutcome.dispatchedOutdent, st)) ∧
    (bnd.blockType = EL.BlockType.paragraph → depth = 0 →
      EL.backspaceHandler st true true anchorKey 0 fuel
        = .ok (EL.BackspaceOutcome.notHandled, st)) := by
  refine ⟨?_, ?_, ?_⟩
  · intro htype
    simp only [EL.backspaceHandler, hanc, hblock]
    rw [if_neg (by simp), if_pos hkind, if_pos htype]
  · intro htype hdz
    simp only [EL.backspaceHandler, hanc, hblock, htype, hdepth]
    rw [if_neg (by simp), if_pos hkind, if_neg (by simp), if_pos hdz]
  · intro htype hdz
    subst hdz
    simp only [EL.backspaceHandler, hanc, hblock, htype, hdepth]
    rw [if_neg (by simp), if_pos hkind, if_neg (by simp), if_neg (by simp)]

/-- Witness for C10: backspace at offset 0 of the `to_do` block of
`c10State` demotes it to paragraph (and does not outdent). -/
theorem c10_backspace_policy_witness :
    EL.backspaceHandler c10State true true 3 0 9
      = .ok (EL.BackspaceOutcome.demotedToParagraph,
          EL.mapNode c10State 1
            (fun x => { x with blockType := EL.BlockType.paragraph })) :=
  (c10_backspace_policy c10State 3 9 1
      { kind := EL.Kind.block, blockType := EL.BlockType.to_do,
        children := [2], parent := some 0 }
      0 rfl rfl rfl rfl).1 (by decide)

namespace EL

theorem mapExcept_mem {α β : Type} (f : α → Except String β) (xs : List α)
    (ys : List β) (h : mapExcept f xs = .ok ys) :
    ∀ b, b ∈ ys ↔ ∃ a ∈ xs, f a = .ok b := by
  induction xs generalizing ys with
  | nil =>
    cases h
    intro b
    simp
  | cons a as ih =>
    simp only [mapExcept, bind, Except.bind] at h
    cases hfa : f a with
    | error e => rw [hfa] at h; cases h
    | ok b0 =>
      rw [hfa] at h
      cases hrest : mapExcept f as with
      | error e => rw [hrest] at h; cases h
      | ok bs =>
        rw [hrest] at h
        cases h
        intro b
        constructor
        · intro hb
          rcases List.mem_cons.mp hb with h1 | h1
          · exact ⟨a, List.mem_cons_self a as, h1 ▸ hfa⟩
          · obtain ⟨x, hx, hfx⟩ := (ih bs hrest b).mp h1
            exact ⟨x, List.mem_cons_of_mem a hx, hfx⟩
        · rintro ⟨x, hx, hfx⟩
          rcases List.mem_cons.mp hx with h1 | h1
          · subst h1
            rw [hfa] at hfx
            cases hfx
            exact List.mem_cons_self _ _
          · exact List.mem_cons_of_mem _ ((ih bs hrest b).mpr ⟨x, h1, hfx⟩)

theorem mapExcept_map_back {α β : Type} (f : α → Except String β)
    (g : β → α) (xs : List α) (ys : List β) (h : mapExcept f xs = .ok ys)
    (hg : ∀ a b, f a = .ok b → g b = a) : ys.map g = xs := by
  induction xs generalizing ys with
  | nil => cases h; rfl
  | cons a as ih =>
    simp only [mapExcept, bind, Except.bind] at h
    cases hfa : f a with
    | error e => rw [hfa] at h; cases h
    | ok b0 =>
      rw [hfa] at h
      cases hrest : mapExcept f as with
      | error e => rw [hrest] at h; cases h
      | ok bs =>
        rw [hrest] at h
        cases h
        simp only [List.map_cons]
        rw [hg a b0 hfa, ih bs hrest]

theorem dedupKeys_go_nodup (ks acc : List Key) (hacc : acc.Nodup) :
    (dedupKeys.go acc ks).Nodup := by
  induction ks generalizing acc with
  | nil => exact hacc
  | cons k rest ih =>
    simp only [dedupKeys.go]
    by_cases hk : k ∈ acc
    · rw [if_pos hk]; exact ih acc hacc
    · rw [if_neg hk]
      refine ih (acc ++ [k]) ?_
      simp [List.nodup_append, hacc, hk]

theorem dedupKeys_go_mem (ks acc : List Key) (b : Key) :
    b ∈ dedupKeys.go acc ks ↔ b ∈ acc ∨ b ∈ ks := by
  induction ks generalizing acc with
  | nil => simp [dedupKeys.go]
  | cons k rest ih =>
    simp only [dedupKeys.go]
    by_cases hk : k ∈ acc
    · rw [if_pos hk, ih]
      constructor
      · rintro (h | h)
        · exact Or.inl h
        · exact Or.inr (List.mem_cons_of_mem k h)
      · rintro (h | h)
        · exact Or.inl h
        · rcases List.mem_cons.mp h with h1 | h1
          · exact Or.inl (h1 ▸ hk)
          · exact Or.inr h1
    · rw [if_neg hk, ih]
      simp only [List.mem_append, List.mem_singleton, List.mem_cons]
      tauto

theorem dedupKeys_nodup (ks : List Key) : (dedupKeys ks).Nodup :=
  dedupKeys_go_nodup ks [] List.nodup_nil

theorem dedupKeys_mem (ks : List Key) (b : Key) :
    b ∈ dedupKeys ks ↔ b ∈ ks := by
  unfold dedupKeys
  rw [dedupKeys_go_mem]
  simp

theorem insertSortedBy_perm {α : Type} (le : α → α → Bool) (a : α)
    (l : List α) : List.Perm (insertSortedBy le a l) (a :: l) := by
  induction l with
  | nil => exact List.Perm.refl _
  | cons b bs ih =>
    simp only [insertSortedBy]
    by_cases h : le a b
    · rw [if_pos h]
    · rw [if_neg h]
      exact List.Perm.trans (List.Perm.cons b ih) (List.Perm.swap a b bs)

theorem sortByBool_perm {α : Type} (le : α → α → Bool) (l : List α) :
    List.Perm (sortByBool le l) l := by
  induction l with
  | nil => exact List.Perm.refl _
  | cons a as ih =>
    simp only [sortByBool]
    exact List.Perm.trans (insertSortedBy_perm le a _) (List.Perm.cons a ih)

theorem insertSortedBy_mem {α : Type} (le : α → α → Bool) (a x : α)
    (l : List α) : x ∈ insertSortedBy le a l ↔ x = a ∨ x ∈ l := by
  rw [(insertSortedBy_perm le a l).mem_iff]
  simp

theorem insertSortedBy_pairwise {α : Type} (le : α → α → Bool)
    (htotal : ∀ a b, le a b ∨ le b a)
    (htrans : ∀ a b c, le a b → le b c → le a c) (a : α) (l : List α)
    (hl : l.Pairwise (fun x y => le x y = true)) :
    (insertSortedBy le a l).Pairwise (fun x y => le x y = true) := by
  induction l with
  | nil => simp [insertSortedBy]
  | cons b bs ih =>
    have hbs := (List.pairwise_cons.mp hl).2
    have hble := (List.pairwise_cons.mp hl).1
    simp only [insertSortedBy]
    by_cases h : le a b
    · rw [if_pos h]
      refine List.pairwise_cons.mpr ⟨?_, hl⟩
      intro x hx
      rcases List.mem_cons.mp hx with h1 | h1
      · exact h1 ▸ h
      · exact htrans a b x h (hble x h1)
    · rw [if_neg h]
      refine List.pairwise_cons.mpr ⟨?_, ih hbs⟩
      intro x hx
      rcases (insertSortedBy_mem le a x bs).mp hx with h1 | h1
      · rw [h1]
        rcases htotal a b with h2 | h2
        · exact absurd h2 h
        · exact h2
      · exact hble x h1

theorem sortByBool_pairwise {α : Type} (le : α → α → Bool)
    (htotal : ∀ a b, le a b ∨ le b a)
    (htrans : ∀ a b c, le a b → le b c → le a c) (l : List α) :
    (sortByBool le l).Pairwise (fun x y => le x y = true) := by
  induction l with
  | nil => simp [sortByBool]
  | cons a as ih => exact insertSortedBy_pairwise le htotal htrans a _ ih

end EL

/-- C9: an indent or outdent over a multi-node selection performs exactly
one operation per distinct nearest block ancestor of the selected (non-block)
nodes, deduplicated by block key, and performs the operations ordered by
nesting depth: ascending for indent, descending for outdent. -/
theorem c9_dedup_and_depth_order (st : EL.State) (selected : List EL.Key)
    (indent : Bool) (op : EL.State → EL.Key → EL.State) (fuel : Nat)
    (st2 : EL.State) (handled : Bool) (ops : List (EL.Key × Nat))
    (h : EL.handleIndentAndOutdent st selected indent op fuel
        = .ok (st2, handled, ops)) :
    (ops.map Prod.fst).Nodup ∧
    (∀ b, b ∈ ops.map Prod.fst ↔
      ∃ k ∈ selected, ¬ EL.isBlockKey st k
        ∧ EL.nearestBlockAncestor st k fuel = some b) ∧
    (∀ p ∈ ops, EL.getBlockDepthOf st p.1 fuel = some p.2) ∧
    (st2 = ops.foldl (fun s bd => op s bd.1) st) ∧
    (if indent then List.Pairwise (fun x y : EL.Key × Nat => x.2 ≤ y.2) ops
     else List.Pairwise (fun x y : EL.Key × Nat => y.2 ≤ x.2) ops) := by
  simp only [EL.handleIndentAndOutdent, bind, Except.bind] at h
  set nonBlock := selected.filter (fun k => ¬ EL.isBlockKey st k) with hnb
  cases hanc : EL.mapExcept (fun k =>
      match EL.nearestBlockAncestor st k fuel with
      | some b => Except.ok b
      | none => Except.error "Expected node to have closest block node.")
      nonBlock with
  | error e => rw [hanc] at h; cases h
  | ok ancestors =>
    simp only [hanc] at h
    cases hwd : EL.mapExcept (fun b =>
        match EL.getBlockDepthOf st b fuel with
        | some d => Except.ok (b, d)
        | none => Except.error "Expected node to have closest block node.")
        (EL.dedupKeys ancestors) with
    | error e => rw [hwd] at h; cases h
    | ok withDepth =>
      simp only [hwd] at h
      have hinj := Except.ok.inj h
      have hops : ops = EL.sortByBool
          (fun a b : EL.Key × Nat =>
            if indent then a.2 ≤ b.2 else b.2 ≤ a.2) withDepth :=
        (congrArg (fun p => p.2.2) hinj).symm
      have hst2raw : st2 = List.foldl (fun s bd => op s bd.1) st
          (EL.sortByBool (fun a b : EL.Key × Nat =>
            if indent then a.2 ≤ b.2 else b.2 ≤ a.2) withDepth) :=
        (congrArg (fun p => p.1) hinj).symm
      have hst2 : st2 = ops.foldl (fun s bd => op s bd.1) st := by
        rw [hops]; exact hst2raw
      have hperm : List.Perm ops withDepth := by
        rw [hops]; exact EL.sortByBool_perm _ _
      have hfst : withDepth.map Prod.fst = EL.dedupKeys ancestors := by
        apply EL.mapExcept_map_back _ _ _ _ hwd
        intro a b hab
        cases hd : EL.getBlockDepthOf st a fuel with
        | none => rw [hd] at hab; cases hab
        | some d => rw [hd] at hab; cases hab; rfl
      have hmapperm : List.Perm (ops.map Prod.fst) (EL.dedupKeys ancestors) := by
        rw [← hfst]
        exact hperm.map Prod.fst
      refine ⟨?_, ?_, ?_, hst2, ?_⟩
      · exact hmapperm.nodup_iff.mpr (EL.dedupKeys_nodup ancestors)
      · intro b
        rw [hmapperm.mem_iff, EL.dedupKeys_mem]
        rw [EL.mapExcept_mem _ _ _ hanc b]
        constructor
        · rintro ⟨k, hk, hfk⟩
          have hk2 := List.mem_filter.mp hk
          refine ⟨k, hk2.1, by simpa using hk2.2, ?_⟩
          cases hn : EL.nearestBlockAncestor st k fuel with
          | none => rw [hn] at hfk; cases hfk
          | some b2 => rw [hn] at hfk; cases hfk; rfl
        · rintro ⟨k, hk, hblk, hn⟩
          refine ⟨k, List.mem_filter.mpr ⟨hk, by simpa using hblk⟩, ?_⟩
          rw [hn]
      · intro p hp
        have hp2 : p ∈ withDepth := hperm.mem_iff.mp hp
        obtain ⟨b, _, hfb⟩ := (EL.mapExcept_mem _ _ _ hwd p).mp hp2
        cases hd : EL.getBlockDepthOf st b fuel with
        | none => rw [hd] at hfb; cases hfb
        | some d => rw [hd] at hfb; cases hfb; exact hd
      · cases indent with
        | true =>
          rw [if_pos (rfl : (true : Bool) = true), hops]
          have hsp := EL.sortByBool_pairwise
            (fun a b : EL.Key × Nat => decide (a.2 ≤ b.2))
            (fun a b => by simpa using Nat.le_total a.2 b.2)
            (fun a b c h1 h2 => by
              simp only [decide_eq_true_eq] at h1 h2
              simpa using Nat.le_trans h1 h2)
            withDepth
          exact hsp.imp (fun hab => by simpa using hab)
        | false =>
          rw [if_neg (by simp), hops]
          have hsp := EL.sortByBool_pairwise
            (fun a b : EL.Key × Nat => decide (b.2 ≤ a.2))
            (fun a b => by simpa using (Nat.le_total b.2 a.2))
            (fun a b c h1 h2 => by
              simp only [decide_eq_true_eq] at h1 h2
              simpa using Nat.le_trans h2 h1)
            withDepth
          exact hsp.imp (fun hab => by simpa using hab)

/-- Concrete tree for the C9 witness: root 0 with sibling blocks 1 and 4;
block 4 contains the nested block 7.  Each block has its BlockText and a
text leaf. -/
def c9State : EL.State := fun k =>
  if k = 0 then some { kind := EL.Kind.root, children := [1, 4] }
  else if k = 1 then
    some { kind := EL.Kind.block, children := [2], parent := some 0 }
  else if k = 2 then
    some { kind := EL.Kind.blockText, children := [3], parent := some 1 }
  else if k = 3 then some { kind := EL.Kind.text, parent := some 2 }
  else if k = 4 then
    some { kind := EL.Kind.block, children := [5, 7], parent := some 0 }
  else if k = 5 then
    some { kind := EL.Kind.blockText, children := [6], parent := some 4 }
  else if k = 6 then some { kind := EL.Kind.text, parent := some 5 }
  else if k = 7 then
    some { kind := EL.Kind.block, children := [8], parent := some 4 }
  else if k = 8 then
    some { kind := EL.Kind.blockText, children := [9], parent := some 7 }
  else if k = 9 then some { kind := EL.Kind.text, parent := some 8 }
  else none

/-- The operations the C9 witness scenario performs: one per distinct block,
ascending by depth. -/
def c9Ops : List (EL.Key × Nat) := [(1, 0), (4, 0), (7, 1)]

/-- Witness for C9: selecting the text leaves of blocks 1, 7 and 4 yields
exactly one operation per block, ordered by ascending depth for indent. -/
theorem c9_dedup_and_depth_order_witness :
    ((c9Ops.map Prod.fst).Nodup) ∧
    (∀ b, b ∈ c9Ops.map Prod.fst ↔
      ∃ k ∈ [3, 9, 6], ¬ EL.isBlockKey c9State k
        ∧ EL.nearestBlockAncestor c9State k 9 = some b) ∧
    (∀ p ∈ c9Ops, EL.getBlockDepthOf c9State p.1 9 = some p.2) ∧
    (c9State = c9Ops.foldl
      (fun s bd => (fun (s : EL.State) (_ : EL.Key) => s) s bd.1) c9State) ∧
    (if true then List.Pairwise (fun x y : EL.Key × Nat => x.2 ≤ y.2) c9Ops
     else List.Pairwise (fun x y : EL.Key × Nat => y.2 ≤ x.2) c9Ops) :=
  c9_dedup_and_depth_order c9State [3, 9, 6] true (fun s _ => s) 9
    c9State true c9Ops rfl

namespace EL

/-- The filter that `getChildBlocks` applies to the child list. -/
def childBlockPred (st : State) (c : Key) : Bool :=
  match st c with
  | some x => x.kind ≠ Kind.blockText
  | none => false

theorem getChildBlocks_eq_filter (st : State) (k : Key) :
    getChildBlocks st k = (childrenOf st k).filter (childBlockPred st) := rfl

theorem indentPerform_move (st : State) (node P pv : Key) (nd Pn pvn : Node)
    (u v : List Key)
    (hnode : st node = some nd) (hP : st P = some Pn) (hpv : st pv = some pvn)
    (hparent : nd.parent = some P)
    (hPc : Pn.children = u ++ pv :: node :: v)
    (hpvblock : pvn.kind = Kind.block)
    (hnu : node ∉ u) (hnpv : node ≠ pv) (hnP : node ≠ P) (hpvP : pv ≠ P)
    (hcnodup : nd.children.Nodup)
    (hcbP : P ∉ getChildBlocks st node) (hcbpv : pv ∉ getChildBlocks st node)
    (hcbnode : node ∉ getChildBlocks st node)
    (hcbparent : ∀ c ∈ getChildBlocks st node,
      ∃ cn, st c = some cn ∧ cn.parent = some node) :
    childrenOf (indentPerform st node) pv
        = pvn.children ++ node :: getChildBlocks st node ∧
    childrenOf (indentPerform st node) P = u ++ pv :: v ∧
    (∃ nd2, (indentPerform st node) node = some nd2 ∧ nd2.parent = some pv ∧
      nd2.children = nd.children.filter (fun c => ! childBlockPred st c)) := by
  have hpvnode : pv ≠ node := Ne.symm hnpv
  have hcbs : getChildBlocks st node = nd.children.filter (childBlockPred st) := by
    rw [getChildBlocks_eq_filter]
    simp only [childrenOf, hnode]
  have hcbsnodup : (getChildBlocks st node).Nodup := by
    rw [hcbs]
    exact hcnodup.filter _
  set cbs := getChildBlocks st node with hcbsdef
  have helemb : elemBefore node (u ++ pv :: node :: v) = some pv :=
    elemBefore_append u pv node v hnu hnpv
  have hperf : indentPerform st node = appendNode st pv (node :: cbs) := by
    simp only [indentPerform, hnode, hparent, childrenOf, hP, hPc, helemb, hpv]
    rw [if_neg (by simp [hpvblock])]
  -- the head unlink step
  set sth := removeFromParent st node with hsth
  have hhead : sth
      = mapNode (mapNode st P (fun pn => { pn with children := pn.children.erase node }))
          node (fun x => { x with parent := none }) := by
    rw [hsth]
    simp only [removeFromParent, hnode, hparent]
  have hsthpv : sth pv = some pvn := by
    rw [hhead, mapNode_ne _ _ _ _ hpvnode, mapNode_ne _ _ _ _ hpvP, hpv]
  have hsthP : sth P = some { Pn with children := Pn.children.erase node } := by
    rw [hhead, mapNode_ne _ _ _ _ (Ne.symm hnP), mapNode_self, hP]
    rfl
  have hsthnode : sth node = some { nd with parent := none } := by
    rw [hhead, mapNode_self, mapNode_ne _ _ _ _ hnP, hnode]
    rfl
  have hsthother : ∀ j, j ≠ node → j ≠ P → sth j = st j := by
    intro j hj1 hj2
    rw [hhead, mapNode_ne _ _ _ _ hj1, mapNode_ne _ _ _ _ hj2]
  -- the child-block unlink fold
  have hfold := foldRemove_spec cbs sth node { nd with parent := none }
    hsthnode hcbsnodup hcbnode
    (by
      intro c hc
      obtain ⟨cn, hcn, hcnp⟩ := hcbparent c hc
      refine ⟨cn, ?_, hcnp⟩
      rw [hsthother c (fun h => hcbnode (h ▸ hc)) (fun h => hcbP (h ▸ hc))]
      exact hcn)
  set st1 := cbs.foldl removeFromParent sth with hst1
  have hst1foldl : (node :: cbs).foldl removeFromParent st = st1 := by
    simp only [List.foldl_cons]
  have hst1pv : st1 pv = some pvn := by
    rw [hfold.2.2 pv hpvnode hcbpv, hsthpv]
  have hst1P : st1 P = some { Pn with children := Pn.children.erase node } := by
    rw [hfold.2.2 P (Ne.symm hnP) hcbP, hsthP]
  have hst1node : st1 node
      = some { nd with
          parent := none, children := cbs.foldl (fun l k => l.erase k) nd.children } := by
    rw [hfold.1]
  -- the splice body
  have hksnodup : (node :: cbs).Nodup := List.nodup_cons.mpr ⟨hcbnode, hcbsnodup⟩
  have hlen : childrenOf st pv = pvn.children := by
    simp only [childrenOf, hpv]
  set newChildren := pvn.children.take pvn.children.length
      ++ (node :: cbs)
      ++ pvn.children.drop (pvn.children.length + 0) with hnewc
  have hnewceq : newChildren = pvn.children ++ node :: cbs := by
    rw [hnewc]
    simp
  set st3 := mapNode st1 pv (fun x => { x with children := newChildren }) with hst3
  have happ : appendNode st pv (node :: cbs)
      = (node :: cbs).foldl
          (fun s k => mapNode s k (fun x => { x with parent := some pv })) st3 := by
    simp only [appendNode, spliceNode, hlen, hst1foldl, hst1pv]
    rfl
  have hst3pv : st3 pv = some { pvn with children := pvn.children ++ node :: cbs } := by
    rw [hst3, mapNode_self, hst1pv, ← hnewceq]
    rfl
  have hst3P : st3 P = st1 P := by
    rw [hst3, mapNode_ne _ _ _ _ hpvP.symm]
  have hst3node : st3 node = st1 node := by
    rw [hst3, mapNode_ne _ _ _ _ hnpv]
  have hfold2 := foldMapNode_mem (f := fun x => { x with parent := some pv })
    (node :: cbs) st3 hksnodup
  rw [hperf, happ]
  refine ⟨?_, ?_, ?_⟩
  · have hfr : pv ∉ node :: cbs := by
      intro h
      rcases List.mem_cons.mp h with h1 | h1
      · exact hnpv h1.symm
      · exact hcbpv h1
    have hfinal := hfold2.2 pv hfr
    rw [hst3pv] at hfinal
    simp only [childrenOf, hfinal]
  · have hfr : P ∉ node :: cbs := by
      intro h
      rcases List.mem_cons.mp h with h1 | h1
      · exact hnP h1.symm
      · exact hcbP h1
    have hfinal := hfold2.2 P hfr
    rw [hst3P, hst1P] at hfinal
    simp only [childrenOf, hfinal]
    rw [hPc, List.erase_append_right _ (by simpa using hnu)]
    congr 1
    rw [List.erase_cons_tail (by simpa using hpvnode)]
    rw [List.erase_cons_head]
  · refine ⟨{ nd with
      parent := some pv,
      children := nd.children.filter (fun c => ! childBlockPred st c) }, ?_, rfl, rfl⟩
    have hfinal := hfold2.1 node (List.mem_cons_self _ _)
    rw [hst3node, hst1node] at hfinal
    rw [hfinal]
    have herase : cbs.foldl (fun l k => l.erase k) nd.children
        = nd.children.filter (fun c => ! childBlockPred st c) := by
      rw [hcbs]
      exact foldErase_filter nd.children hcnodup (childBlockPred st)
    rw [herase]
    rfl

theorem indentPerform_no_prev (st : State) (node : Key) (nd : Node) (P : Key)
    (hnode : st node = some nd) (hparent : nd.parent = some P)
    (hnone : elemBefore node (childrenOf st P) = none) :
    indentPerform st node = st := by
  simp only [indentPerform, hnode, hparent, hnone]

theorem indentPerform_nonblock_prev (st : State) (node : Key) (nd : Node)
    (P pv : Key) (pvn : Node)
    (hnode : st node = some nd) (hparent : nd.parent = some P)
    (hpv : elemBefore node (childrenOf st P) = some pv)
    (hpvn : st pv = some pvn) (hkind : pvn.kind ≠ Kind.block) :
    indentPerform st node = st := by
  simp only [indentPerform, hnode, hparent, hpv, hpvn]
  rw [if_pos hkind]

theorem indentCommand_handled (st : State) (selected : List Key) (fuel : Nat)
    (st2 : State) (handled : Bool) (ops : List (Key × Nat))
    (h : indentCommand st selected fuel = .ok (st2, handled, ops)) :
    handled = true ↔ ops ≠ [] := by
  simp only [indentCommand, handleIndentAndOutdent, bind, Except.bind] at h
  cases hanc : mapExcept (fun k =>
      match nearestBlockAncestor st k fuel with
      | some b => Except.ok b
      | none => Except.error "Expected node to have closest block node.")
      (selected.filter (fun k => ¬ isBlockKey st k)) with
  | error e => rw [hanc] at h; cases h
  | ok ancestors =>
    simp only [hanc] at h
    cases hwd : mapExcept (fun b =>
        match getBlockDepthOf st b fuel with
        | some d => Except.ok (b, d)
        | none => Except.error "Expected node to have closest block node.")
        (dedupKeys ancestors) with
    | error e => rw [hwd] at h; cases h
    | ok withDepth =>
      simp only [hwd] at h
      have hinj := Except.ok.inj h
      have hhandled : handled = !(dedupKeys ancestors).isEmpty :=
        (congrArg (fun p => p.2.1) hinj).symm
      have hops : ops = sortByBool
          (fun a b : Key × Nat => if true then a.2 ≤ b.2 else b.2 ≤ a.2)
          withDepth :=
        (congrArg (fun p => p.2.2) hinj).symm
      have hlen1 : withDepth.length = (dedupKeys ancestors).length := by
        have := mapExcept_map_back _ Prod.fst _ _ hwd (by
          intro a b hab
          cases hd : getBlockDepthOf st a fuel with
          | none => rw [hd] at hab; cases hab
          | some d => rw [hd] at hab; cases hab; rfl)
        calc withDepth.length = (withDepth.map Prod.fst).length := by simp
          _ = (dedupKeys ancestors).length := by rw [this]
      have hlen2 : ops.length = withDepth.length := by
        rw [hops]
        exact (sortByBool_perm _ _).length_eq
      rw [hhandled]
      constructor
      · intro hne hopsnil
        rw [hopsnil] at hlen2
        simp only [List.length_nil] at hlen2
        have : (dedupKeys ancestors).length = 0 := by omega
        have : (dedupKeys ancestors).isEmpty := by
          simpa [List.isEmpty_iff_length_eq_zero] using this
        simp [this] at hne
      · intro hne
        have : ops.length ≠ 0 := by
          intro h0
          exact hne (List.eq_nil_of_length_eq_zero h0)
        have hne2 : ¬ (dedupKeys ancestors).isEmpty := by
          rw [List.isEmpty_iff_length_eq_zero]
          omega
        simp [hne2]

end EL

/-- Concrete tree for C8: root 0 whose only child is block 1 (with BlockText
2 holding text 3).  Block 1 has no previous sibling at all. -/
def c8State : EL.State := fun k =>
  if k = 0 then some { kind := EL.Kind.root, children := [1] }
  else if k = 1 then
    some { kind := EL.Kind.block, children := [2], parent := some 0 }
  else if k = 2 then
    some { kind := EL.Kind.blockText, children := [3], parent := some 1 }
  else if k = 3 then some { kind := EL.Kind.text, parent := some 2 }
  else none

/-- Counterexample for C8: indenting the first (and only) block of the root
makes no change to the tree, yet the command handler returns `true`
("handled"), contradicting the claim that it is reported as not handled. -/
theorem c8_indent_handled_counterexample :
    EL.indentCommand c8State [3] 9 = .ok (c8State, true, [(1, 0)]) := rfl

/-- C8 (amended): a selected block with a preceding sibling block is moved,
together with its non-text child blocks and in original relative order, to
the end of that sibling block's children; with no preceding sibling block
the tree is unchanged; but the command is reported as handled whenever at
least one operation was attempted (even a no-op), not "not handled". -/
theorem c8_indent_amended :
    (∀ (st : EL.State) (node P pv : EL.Key) (nd Pn pvn : EL.Node)
        (u v : List EL.Key),
      st node = some nd → st P = some Pn → st pv = some pvn →
      nd.parent = some P → Pn.children = u ++ pv :: node :: v →
      pvn.kind = EL.Kind.block →
      node ∉ u → node ≠ pv → node ≠ P → pv ≠ P →
      nd.children.Nodup →
      P ∉ EL.getChildBlocks st node → pv ∉ EL.getChildBlocks st node →
      node ∉ EL.getChildBlocks st node →
      (∀ c ∈ EL.getChildBlocks st node,
        ∃ cn, st c = some cn ∧ cn.parent = some node) →
      EL.childrenOf (EL.indentPerform st node) pv
          = pvn.children ++ node :: EL.getChildBlocks st node ∧
      EL.childrenOf (EL.indentPerform st node) P = u ++ pv :: v ∧
      (∃ nd2, (EL.indentPerform st node) node = some nd2 ∧
        nd2.parent = some pv ∧
        nd2.children = nd.children.filter (fun c => ! EL.childBlockPred st c))) ∧
    (∀ (st : EL.State) (node : EL.Key) (nd : EL.Node) (P : EL.Key),
      st node = some nd → nd.parent = some P →
      EL.elemBefore node (EL.childrenOf st P) = none →
      EL.indentPerform st node = st) ∧
    (∀ (st : EL.State) (node : EL.Key) (nd : EL.Node) (P pv : EL.Key)
        (pvn : EL.Node),
      st node = some nd → nd.parent = some P →
      EL.elemBefore node (EL.childrenOf st P) = some pv →
      st pv = some pvn → pvn.kind ≠ EL.Kind.block →
      EL.indentPerform st node = st) ∧
    (∀ (st : EL.State) (selected : List EL.Key) (fuel : Nat) (st2 : EL.State)
        (handled : Bool) (ops : List (EL.Key × Nat)),
      EL.indentCommand st selected fuel = .ok (st2, handled, ops) →
      (handled = true ↔ ops ≠ [])) :=
  ⟨fun st node P pv nd Pn pvn u v h1 h2 h3 h4 h5 h6 h7 h8 h9 h10 h11 h12 h13
      h14 h15 =>
    EL.indentPerform_move st node P pv nd Pn pvn u v h1 h2 h3 h4 h5 h6 h7 h8
      h9 h10 h11 h12 h13 h14 h15,
   fun st node nd P h1 h2 h3 => EL.indentPerform_no_prev st node nd P h1 h2 h3,
   fun st node nd P pv pvn h1 h2 h3 h4 h5 =>
    EL.indentPerform_nonblock_prev st node nd P pv pvn h1 h2 h3 h4 h5,
   fun st selected fuel st2 handled ops h =>
    EL.indentCommand_handled st selected fuel st2 handled ops h⟩

/-- Witness for C8 (amended): in `c8State`, block 1 has no previous sibling;
the indent operation leaves the state unchanged. -/
theorem c8_indent_amended_witness :
    EL.indentPerform c8State 1 = c8State :=
  c8_indent_amended.2.1 c8State 1
    { kind := EL.Kind.block, children := [2], parent := some 0 } 0
    rfl rfl rfl

namespace EL

theorem foldErase_self (cs : List Key) (hnodup : cs.Nodup) :
    cs.foldl (fun l k => l.erase k) cs = [] := by
  have h := foldErase_filter cs hnodup (fun _ => true)
  simpa using h

theorem foldRemove_children (st : State) (B : Key) (bnd : Node)
    (hB : st B = some bnd) (hnodup : bnd.children.Nodup)
    (hBnot : B ∉ bnd.children)
    (hmem : ∀ c ∈ bnd.children, ∃ cn, st c = some cn ∧ cn.parent = some B) :
    (bnd.children.foldl removeFromParent st) B = some { bnd with children := [] } ∧
    (∀ c ∈ bnd.children, (bnd.children.foldl removeFromParent st) c
        = (st c).map (fun x => { x with parent := none })) ∧
    (∀ j, j ≠ B → j ∉ bnd.children →
      (bnd.children.foldl removeFromParent st) j = st j) := by
  have h := foldRemove_spec bnd.children st B bnd hB hnodup hBnot hmem
  refine ⟨?_, h.2.1, h.2.2⟩
  rw [h.1]
  have : List.foldl (fun l k => l.erase k) bnd.children bnd.children = [] :=
    foldErase_self bnd.children hnodup
  simp only [this]

theorem blockTransform_merge (st : State) (B par pv : Key)
    (bnd parn pvn : Node) (c0 : Key) (c0n : Node) (u v : List Key) (f : Nat)
    (hB : st B = some bnd) (hpar : st par = some parn) (hpv : st pv = some pvn)
    (hhead : bnd.children.head? = some c0) (hc0 : st c0 = some c0n)
    (hc0k : c0n.kind ≠ Kind.blockText)
    (hparent : bnd.parent = some par)
    (hparc : parn.children = u ++ pv :: B :: v)
    (hpvk : pvn.kind = Kind.block)
    (hBu : B ∉ u) (hBpv : B ≠ pv) (hBpar : B ≠ par) (hpvpar : pv ≠ par)
    (hcnodup : bnd.children.Nodup) (hBnot : B ∉ bnd.children)
    (hparnot : par ∉ bnd.children) (hpvnot : pv ∉ bnd.children) :
    (∀ c ∈ bnd.children, ∃ cn, st c = some cn ∧ cn.parent = some B) →
    childrenOf (blockTransform st B (f + 1)) pv = pvn.children ++ bnd.children ∧
    childrenOf (blockTransform st B (f + 1)) par = u ++ pv :: v ∧
    (∃ b2, (blockTransform st B (f + 1)) B = some b2 ∧ b2.parent = none) := by
  intro hmem
  have hpvB : pv ≠ B := Ne.symm hBpv
  have helemb : elemBefore B (u ++ pv :: B :: v) = some pv :=
    elemBefore_append u pv B v hBu hBpv
  have htr : blockTransform st B (f + 1)
      = removeNode (appendNode st pv bnd.children) B (f + 1) := by
    simp only [blockTransform, hB, hhead, hc0, hparent, hpar, hparc, helemb,
      hpv]
    rw [if_neg (by simp [hc0k]), if_pos hpvk]
  -- unlink all of B's children
  have hfold := foldRemove_children st B bnd hB hcnodup hBnot hmem
  set st1 := bnd.children.foldl removeFromParent st with hst1
  have hst1pv : st1 pv = some pvn := by
    rw [hfold.2.2 pv hpvB hpvnot, hpv]
  have hst1par : st1 par = some parn := by
    rw [hfold.2.2 par (Ne.symm hBpar) hparnot, hpar]
  -- splice the children to the end of pv
  have hlen : childrenOf st pv = pvn.children := by
    simp only [childrenOf, hpv]
  set newChildren := pvn.children.take pvn.children.length
      ++ bnd.children
      ++ pvn.children.drop (pvn.children.length + 0) with hnewc
  have hnewceq : newChildren = pvn.children ++ bnd.children := by
    rw [hnewc]
    simp
  set st3 := mapNode st1 pv (fun x => { x with children := newChildren }) with hst3
  have happ : appendNode st pv bnd.children
      = bnd.children.foldl
          (fun s k => mapNode s k (fun x => { x with parent := some pv })) st3 := by
    simp only [appendNode, spliceNode, hlen, ← hst1, hst1pv]
    rfl
  have hst3pv : st3 pv
      = some { pvn with children := pvn.children ++ bnd.children } := by
    rw [hst3, mapNode_self, hst1pv, ← hnewceq]
    rfl
  have hfold2 := foldMapNode_mem (f := fun x => { x with parent := some pv })
    bnd.children st3 hcnodup
  set st4 := bnd.children.foldl
    (fun s k => mapNode s k (fun x => { x with parent := some pv })) st3 with hst4
  have hst4pv : st4 pv
      = some { pvn with children := pvn.children ++ bnd.children } := by
    rw [hfold2.2 pv hpvnot, hst3pv]
  have hst4par : st4 par = some parn := by
    rw [hfold2.2 par hparnot, hst3, mapNode_ne _ _ _ _ hpvpar.symm, hst1par]
  have hst4B : st4 B = some { bnd with children := [] } := by
    rw [hfold2.2 B hBnot, hst3, mapNode_ne _ _ _ _ hBpv, hfold.1]
  -- index and take-drop facts for removing B from the parent
  have hidx : idxOf B (u ++ pv :: B :: v) = u.length + 1 := by
    have hre : u ++ pv :: B :: v = (u ++ [pv]) ++ B :: v := by simp
    rw [hre, idxOf_append (u ++ [pv]) B v
      (by
        intro h
        rcases List.mem_append.mp h with h1 | h1
        · exact hBu h1
        · exact hBpv (List.mem_singleton.mp h1))]
    simp
  have htake : (u ++ pv :: B :: v).take (u.length + 1) = u ++ [pv] :=
    take_append_cons u pv (B :: v)
  have hdropB : (u ++ pv :: B :: v).drop (u.length + 1) = B :: v := by
    have hre : u ++ pv :: B :: v = (u ++ [pv]) ++ B :: v := by simp
    rw [hre]
    have hlen2 : u.length + 1 = (u ++ [pv]).length := by simp
    rw [hlen2, List.drop_left]
  have hdropv : (u ++ pv :: B :: v).drop (u.length + 1 + 1) = v := by
    have hre : u ++ pv :: B :: v = (u ++ [pv]) ++ B :: v := by simp
    rw [hre]
    have hlen2 : u.length + 1 = (u ++ [pv]).length := by simp
    rw [hlen2]
    exact drop_append_cons (u ++ [pv]) B v
  -- the single splice performed by removeNode
  set st5 := mapNode (mapNode st4 B (fun x => { x with parent := none })) par
      (fun x => { x with children :=
        parn.children.take (u.length + 1) ++ []
          ++ parn.children.drop (u.length + 1 + 1) }) with hst5
  have hsplice : spliceNode st4 par (idxOf B (childrenOf st4 par)) 1 [] = st5 := by
    have hcof : childrenOf st4 par = parn.children := by
      simp only [childrenOf, hst4par]
    have hidx2 : idxOf B (childrenOf st4 par) = u.length + 1 := by
      rw [hcof, hparc, hidx]
    have hremoved : (parn.children.drop (u.length + 1)).take 1 = [B] := by
      rw [hparc, hdropB]
      rfl
    simp only [spliceNode, List.foldl_nil, hst4par, hidx2, hremoved,
      List.foldl_cons]
  have hst5par : st5 par = some { parn with children := u ++ pv :: v } := by
    rw [hst5, mapNode_self, mapNode_ne _ _ _ _ (Ne.symm hBpar), hst4par]
    simp only [Option.map_some, hparc, htake, hdropv]
    simp
  have hcascade : removeNode st4 B (f + 1) = st5 := by
    simp only [removeNode, hst4B, hparent, hsplice, hst5par]
    rw [if_neg]
    intro hcond
    have h1 := hcond.1
    simp only [List.isEmpty_eq_true] at h1
    have : pv ∈ ({ parn with children := u ++ pv :: v } : Node).children := by
      simp
    rw [h1] at this
    cases this
  have hfinal : blockTransform st B (f + 1) = st5 := by
    rw [htr, happ, hcascade]
  refine ⟨?_, ?_, ?_⟩
  · have h5pv : st5 pv = st4 pv := by
      rw [hst5, mapNode_ne _ _ _ _ hpvpar, mapNode_ne _ _ _ _ hpvB]
    simp only [hfinal, childrenOf, h5pv, hst4pv]
  · simp only [hfinal, childrenOf, hst5par]
  · refine ⟨{ bnd with children := [], parent := none }, ?_, rfl⟩
    have h5B : st5 B = some { bnd with children := [], parent := none } := by
      rw [hst5, mapNode_ne _ _ _ _ hBpar, mapNode_self, hst4B]
      rfl
    rw [hfinal, h5B]

theorem blockTransform_splice (st : State) (B par pv : Key)
    (bnd parn pvn : Node) (c0 : Key) (c0n : Node) (u v : List Key) (fuel : Nat)
    (hB : st B = some bnd) (hpar : st par = some parn) (hpv : st pv = some pvn)
    (hhead : bnd.children.head? = some c0) (hc0 : st c0 = some c0n)
    (hc0k : c0n.kind ≠ Kind.blockText)
    (hparent : bnd.parent = some par)
    (hparc : parn.children = u ++ pv :: B :: v)
    (hpvk : pvn.kind ≠ Kind.block) (hpvelem : isElementKind pvn.kind = true)
    (hBu : B ∉ u) (hBpv : B ≠ pv) (hBpar : B ≠ par)
    (hcnodup : bnd.children.Nodup) (hBnot : B ∉ bnd.children)
    (hparnot : par ∉ bnd.children)
    (hmem : ∀ c ∈ bnd.children, ∃ cn, st c = some cn ∧ cn.parent = some B) :
    childrenOf (blockTransform st B fuel) par = u ++ pv :: (bnd.children ++ v) ∧
    (∃ b2, (blockTransform st B fuel) B = some b2 ∧ b2.parent = none) ∧
    (∀ c ∈ bnd.children, ∃ cn, (blockTransform st B fuel) c = some cn
      ∧ cn.parent = some par) := by
  have helemb : elemBefore B (u ++ pv :: B :: v) = some pv :=
    elemBefore_append u pv B v hBu hBpv
  have htr : blockTransform st B fuel
      = spliceNode st par (idxOf B parn.children) 1 bnd.children := by
    simp only [blockTransform, hB, hhead, hc0, hparent, hpar, hparc, helemb,
      hpv]
    rw [if_neg (by simp [hc0k]), if_neg hpvk, if_pos hpvelem]
  have hfold := foldRemove_children st B bnd hB hcnodup hBnot hmem
  set st1 := bnd.children.foldl removeFromParent st with hst1
  have hst1par : st1 par = some parn := by
    rw [hfold.2.2 par (Ne.symm hBpar) hparnot, hpar]
  have hidx : idxOf B (u ++ pv :: B :: v) = u.length + 1 := by
    have hre : u ++ pv :: B :: v = (u ++ [pv]) ++ B :: v := by simp
    rw [hre, idxOf_append (u ++ [pv]) B v
      (by
        intro h
        rcases List.mem_append.mp h with h1 | h1
        · exact hBu h1
        · exact hBpv (List.mem_singleton.mp h1))]
    simp
  have htake : (u ++ pv :: B :: v).take (u.length + 1) = u ++ [pv] :=
    take_append_cons u pv (B :: v)
  have hdropB : (u ++ pv :: B :: v).drop (u.length + 1) = B :: v := by
    have hre : u ++ pv :: B :: v = (u ++ [pv]) ++ B :: v := by simp
    rw [hre]
    have hlen2 : u.length + 1 = (u ++ [pv]).length := by simp
    rw [hlen2, List.drop_left]
  have hdropv : (u ++ pv :: B :: v).drop (u.length + 1 + 1) = v := by
    have hre : u ++ pv :: B :: v = (u ++ [pv]) ++ B :: v := by simp
    rw [hre]
    have hlen2 : u.length + 1 = (u ++ [pv]).length := by simp
    rw [hlen2]
    exact drop_append_cons (u ++ [pv]) B v
  set st3 := mapNode (mapNode st1 B (fun x => { x with parent := none })) par
      (fun x => { x with children :=
        parn.children.take (u.length + 1) ++ bnd.children
          ++ parn.children.drop (u.length + 1 + 1) }) with hst3
  have hsplice : spliceNode st par (idxOf B parn.children) 1 bnd.children
      = bnd.children.foldl
          (fun s k => mapNode s k (fun x => { x with parent := some par })) st3 := by
    have hremoved : (parn.children.drop (u.length + 1)).take 1 = [B] := by
      rw [hparc, hdropB]
      rfl
    have hidx2 : idxOf B parn.children = u.length + 1 := by
      rw [hparc, hidx]
    simp only [spliceNode, hidx2, ← hst1, hst1par, hremoved, List.foldl_cons,
      List.foldl_nil]
  have hfold2 := foldMapNode_mem
    (f := fun x => { x with parent := some par }) bnd.children st3 hcnodup
  have hst3par : st3 par = some { parn with
      children := u ++ pv :: (bnd.children ++ v) } := by
    rw [hst3, mapNode_self, mapNode_ne _ _ _ _ (Ne.symm hBpar), hst1par]
    simp only [Option.map_some, hparc, htake, hdropv]
    simp
  have hst3B : st3 B = some { bnd with children := [], parent := none } := by
    rw [hst3, mapNode_ne _ _ _ _ hBpar, mapNode_self, hfold.1]
    rfl
  refine ⟨?_, ?_, ?_⟩
  · have hfr := hfold2.2 par hparnot
    simp only [childrenOf, htr, hsplice, hfr, hst3par]
  · refine ⟨{ bnd with children := [], parent := none }, ?_, rfl⟩
    rw [htr, hsplice, hfold2.2 B hBnot, hst3B]
  · intro c hc
    obtain ⟨cn, hcn, hcnp⟩ := hmem c hc
    have hcB : c ≠ B := fun h => hBnot (h ▸ hc)
    have hcpar : c ≠ par := fun h => hparnot (h ▸ hc)
    have hst1c : st1 c = some { cn with parent := none } := by
      rw [hfold.2.1 c hc, hcn]
      rfl
    have hst3c : st3 c = some { cn with parent := none } := by
      rw [hst3, mapNode_ne _ _ _ _ hcpar, mapNode_ne _ _ _ _ hcB, hst1c]
    refine ⟨{ cn with parent := some par }, ?_, rfl⟩
    rw [htr, hsplice, hfold2.1 c hc, hst3c]
    rfl

theorem blockTransform_no_prev (st : State) (B : Key) (bnd : Node)
    (c0 : Key) (c0n : Node) (par : Key) (parn : Node) (fuel : Nat)
    (hB : st B = some bnd)
    (hhead : bnd.children.head? = some c0) (hc0 : st c0 = some c0n)
    (hc0k : c0n.kind ≠ Kind.blockText)
    (hparent : bnd.parent = some par) (hpar : st par = some parn)
    (hnone : elemBefore B parn.children = none) :
    blockTransform st B fuel = st := by
  simp only [blockTransform, hB, hhead, hc0, hparent, hpar, hnone]
  rw [if_neg (by simp [hc0k])]

end EL

/-- Concrete tree for C4: root 0 whose only child is block 1; block 1's
first (and only) child is the nested block 2, not a BlockText; block 1 has
no previous sibling. -/
def c4State : EL.State := fun k =>
  if k = 0 then some { kind := EL.Kind.root, children := [1] }
  else if k = 1 then
    some { kind := EL.Kind.block, children := [2], parent := some 0 }
  else if k = 2 then
    some { kind := EL.Kind.block, children := [3], parent := some 1 }
  else if k = 3 then
    some { kind := EL.Kind.blockText, parent := some 2 }
  else none

/-- Counterexample for C4: block 1's first child is not a BlockText and
block 1 has no previous sibling at all; the transform leaves the tree
completely unchanged, contradicting the claim that its child list is
spliced into the parent and the block removes itself. -/
theorem c4_no_prev_sibling_counterexample :
    EL.blockTransform c4State 1 9 = c4State ∧
    EL.childrenOf c4State 0 = [1] ∧ EL.childrenOf c4State 1 = [2] :=
  ⟨rfl, rfl, rfl⟩

/-- C4 (amended): when a block's first child is not a BlockText: with a
previous sibling block, all children merge to the end of that sibling's
children and the block is deleted; with a previous sibling that is a
non-block element, the children are spliced into the parent at the block's
former index and the block is removed; with no previous sibling at all the
transform makes no change. -/
theorem c4_block_transform_amended :
    (∀ (st : EL.State) (B par pv : EL.Key) (bnd parn pvn : EL.Node)
        (c0 : EL.Key) (c0n : EL.Node) (u v : List EL.Key) (f : Nat),
      st B = some bnd → st par = some parn → st pv = some pvn →
      bnd.children.head? = some c0 → st c0 = some c0n →
      c0n.kind ≠ EL.Kind.blockText →
      bnd.parent = some par → parn.children = u ++ pv :: B :: v →
      pvn.kind = EL.Kind.block →
      B ∉ u → B ≠ pv → B ≠ par → pv ≠ par →
      bnd.children.Nodup → B ∉ bnd.children →
      par ∉ bnd.children → pv ∉ bnd.children →
      (∀ c ∈ bnd.children, ∃ cn, st c = some cn ∧ cn.parent = some B) →
      EL.childrenOf (EL.blockTransform st B (f + 1)) pv
          = pvn.children ++ bnd.children ∧
      EL.childrenOf (EL.blockTransform st B (f + 1)) par = u ++ pv :: v ∧
      (∃ b2, (EL.blockTransform st B (f + 1)) B = some b2
        ∧ b2.parent = none)) ∧
    (∀ (st : EL.State) (B par pv : EL.Key) (bnd parn pvn : EL.Node)
        (c0 : EL.Key) (c0n : EL.Node) (u v : List EL.Key) (fuel : Nat),
      st B = some bnd → st par = some parn → st pv = some pvn →
      bnd.children.head? = some c0 → st c0 = some c0n →
      c0n.kind ≠ EL.Kind.blockText →
      bnd.parent = some par → parn.children = u ++ pv :: B :: v →
      pvn.kind ≠ EL.Kind.block → EL.isElementKind pvn.kind = true →
      B ∉ u → B ≠ pv → B ≠ par →
      bnd.children.Nodup → B ∉ bnd.children → par ∉ bnd.children →
      (∀ c ∈ bnd.children, ∃ cn, st c = some cn ∧ cn.parent = some B) →
      EL.childrenOf (EL.blockTransform st B fuel) par
          = u ++ pv :: (bnd.children ++ v) ∧
      (∃ b2, (EL.blockTransform st B fuel) B = some b2 ∧ b2.parent = none) ∧
      (∀ c ∈ bnd.children, ∃ cn, (EL.blockTransform st B fuel) c = some cn
        ∧ cn.parent = some par)) ∧
    (∀ (st : EL.State) (B : EL.Key) (bnd : EL.Node) (c0 : EL.Key)
        (c0n : EL.Node) (par : EL.Key) (parn : EL.Node) (fuel : Nat),
      st B = some bnd →
      bnd.children.head? = some c0 → st c0 = some c0n →
      c0n.kind ≠ EL.Kind.blockText →
      bnd.parent = some par → st par = some parn →
      EL.elemBefore B parn.children = none →
      EL.blockTransform st B fuel = st) :=
  ⟨fun st B par pv bnd parn pvn c0 c0n u v f h1 h2 h3 h4 h5 h6 h7 h8 h9 h10
      h11 h12 h13 h14 h15 h16 h17 h18 =>
    EL.blockTransform_merge st B par pv bnd parn pvn c0 c0n u v f h1 h2 h3 h4
      h5 h6 h7 h8 h9 h10 h11 h12 h13 h14 h15 h16 h17 h18,
   fun st B par pv bnd parn pvn c0 c0n u v fuel h1 h2 h3 h4 h5 h6 h7 h8 h9
      h10 h11 h12 h13 h14 h15 h16 h17 =>
    EL.blockTransform_splice st B par pv bnd parn pvn c0 c0n u v fuel h1 h2
      h3 h4 h5 h6 h7 h8 h9 h10 h11 h12 h13 h14 h15 h16 h17,
   fun st B bnd c0 c0n par parn fuel h1 h2 h3 h4 h5 h6 h7 =>
    EL.blockTransform_no_prev st B bnd c0 c0n par parn fuel h1 h2 h3 h4 h5 h6
      h7⟩

/-- Witness for C4 (amended): in `c4State`, block 1 has no previous sibling
and its first child is the nested block 2; the transform makes no change. -/
theorem c4_block_transform_amended_witness :
    EL.blockTransform c4State 1 9 = c4State :=
  c4_block_transform_amended.2.2 c4State 1
    { kind := EL.Kind.block, children := [2], parent := some 0 } 2
    { kind := EL.Kind.block, children := [3], parent := some 1 } 0
    { kind := EL.Kind.root, children := [1] } 9
    rfl rfl rfl (by decide) rfl rfl rfl

namespace EL

/-- C2 (amended): inserting a BlockText `t` after a BlockText `b` whose
parent is the block `p` splits `p`: exactly one new block becomes the next
sibling of `p`, its children are `t` followed by `b`'s former following
siblings, so the combined children of `p` and the new block equal `p`'s
original child list with `t` inserted right after `b`; the new block keeps
`p`'s type for the three list types and resets to paragraph otherwise. -/
theorem c2_blocktext_split_amended (st : State) (b t newKey p g : Key)
    (bnd pnd gnd tnd : Node) (pre post gpre gpost : List Key)
    (hb : st b = some bnd) (hbp : bnd.parent = some p)
    (hp : st p = some pnd) (hpk : pnd.kind = Kind.block)
    (hpc : pnd.children = pre ++ b :: post) (hpg : pnd.parent = some g)
    (hg : st g = some gnd) (hgc : gnd.children = gpre ++ p :: gpost)
    (ht : st t = some tnd) (htk : tnd.kind = Kind.blockText)
    (htp : tnd.parent = none)
    (hnew : st newKey = none)
    (hbpre : b ∉ pre) (hpostnd : post.Nodup)
    (hpostmem : ∀ k ∈ post, ∃ kn, st k = some kn ∧ kn.parent = some p)
    (hpostdisj : ∀ k ∈ post, k ∉ pre ∧ k ≠ b)
    (hppost : p ∉ post) (htpost : t ∉ post) (hgpost : g ∉ post)
    (htp2 : t ≠ p) (htg : t ≠ g) (hpg2 : p ≠ g)
    (hpgpre : p ∉ gpre) :
    ∃ stF, blockTextInsertAfter st b t newKey = .ok (stF, newKey) ∧
      childrenOf stF p = pre ++ [b] ∧
      (∃ nn, stF newKey = some nn ∧ nn.children = t :: post ∧
        nn.kind = Kind.block ∧ nn.parent = some g ∧
        nn.blockType = getNewBlockType pnd.blockType) ∧
      childrenOf stF g = gpre ++ p :: newKey :: gpost ∧
      childrenOf stF p ++ childrenOf stF newKey = pre ++ [b] ++ t :: post ∧
      (∀ bt : BlockType, getNewBlockType bt =
        if bt = BlockType.bulleted_list_item ∨ bt = BlockType.numbered_list_item
            ∨ bt = BlockType.to_do
        then bt else BlockType.paragraph) := by
  have hkeyne : ∀ k : Key, (st k).isSome = true → k ≠ newKey := by
    intro k hk hkeq
    rw [hkeq, hnew] at hk
    cases hk
  have hbnew : b ≠ newKey := hkeyne b (by rw [hb]; rfl)
  have hpnew : p ≠ newKey := hkeyne p (by rw [hp]; rfl)
  have hgnew : g ≠ newKey := hkeyne g (by rw [hg]; rfl)
  have htnew : t ≠ newKey := hkeyne t (by rw [ht]; rfl)
  have hpostnew : ∀ k ∈ post, k ≠ newKey := by
    intro k hk
    obtain ⟨kn, hkn, _⟩ := hpostmem k hk
    exact hkeyne k (by rw [hkn]; rfl)
  set st1 := setNode st newKey
    { kind := Kind.block, blockType := getNewBlockType pnd.blockType,
      children := [], parent := none } with hst1
  have hst1at : ∀ k, k ≠ newKey → st1 k = st k := by
    intro k hk
    rw [hst1, setNode_ne _ _ _ _ hk]
  have hst1new : st1 newKey
      = some { kind := Kind.block, blockType := getNewBlockType pnd.blockType,
               children := [], parent := none } := by
    rw [hst1, setNode_self]
  -- the following siblings of b
  have hidxb : idxOf b (pre ++ b :: post) = pre.length :=
    idxOf_append pre b post hbpre
  have hsib : nextSiblingsOf st1 b = post := by
    simp only [nextSiblingsOf, hst1at b hbnew, hb, hbp, childrenOf,
      hst1at p hpnew, hp, hpc, hidxb]
    exact drop_append_cons pre b post
  -- unlinking t (parentless) is a no-op
  have hremT : removeFromParent st1 t = st1 := by
    simp only [removeFromParent, hst1at t htnew, ht, htp]
  -- unlinking the following siblings from p
  have hfoldP := foldRemove_spec post st1 p pnd (by rw [hst1at p hpnew, hp])
    hpostnd hppost
    (by
      intro k hk
      obtain ⟨kn, hkn, hknp⟩ := hpostmem k hk
      exact ⟨kn, by rw [hst1at k (hpostnew k hk), hkn], hknp⟩)
  set stA := post.foldl removeFromParent st1 with hstA
  have hfold1 : (t :: post).foldl removeFromParent st1 = stA := by
    simp only [List.foldl_cons, hremT]
  have hstAp : stA p = some { pnd with children := pre ++ [b] } := by
    rw [hfoldP.1]
    have h2 : List.foldl (fun l k => l.erase k) pnd.children post
        = pre ++ [b] := by
      rw [hpc, show pre ++ b :: post = (pre ++ [b]) ++ post by simp]
      exact foldErase_append post (pre ++ [b]) hpostnd
        (by
          intro k hk
          intro hmem2
          rcases List.mem_append.mp hmem2 with h3 | h3
          · exact (hpostdisj k hk).1 h3
          · exact (hpostdisj k hk).2 (List.mem_singleton.mp h3))
    simp only [h2]
  have hstAnew : stA newKey
      = some { kind := Kind.block, blockType := getNewBlockType pnd.blockType,
               children := [], parent := none } := by
    rw [hfoldP.2.2 newKey (Ne.symm hpnew) (fun h => (hpostnew newKey h) rfl),
      hst1new]
  have hstAg : stA g = some gnd := by
    rw [hfoldP.2.2 g hpg2.symm hgpost, hst1at g hgnew, hg]
  have hstAt : stA t = some tnd := by
    rw [hfoldP.2.2 t htp2 htpost, hst1at t htnew, ht]
  -- append t and the siblings into the new block
  have hcof0 : childrenOf st1 newKey = [] := by
    simp only [childrenOf, hst1new]
  set st3 := mapNode stA newKey (fun x => { x with children := t :: post })
    with hst3
  have happ : appendNode st1 newKey (t :: post)
      = (t :: post).foldl
          (fun s k => mapNode s k (fun x => { x with parent := some newKey }))
          st3 := by
    simp only [appendNode, spliceNode, hcof0, List.length_nil, hfold1,
      hstAnew, List.drop_zero, List.take_zero, List.drop_nil, List.take_nil,
      List.foldl_nil, List.nil_append, List.append_nil]
  have htpostnd : (t :: post).Nodup := List.nodup_cons.mpr ⟨htpost, hpostnd⟩
  have hfold2 := foldMapNode_mem
    (f := fun x => { x with parent := some newKey }) (t :: post) st3 htpostnd
  set st2 := (t :: post).foldl
    (fun s k => mapNode s k (fun x => { x with parent := some newKey })) st3
    with hst2
  have hpnotin : p ∉ t :: post := by
    intro h
    rcases List.mem_cons.mp h with h1 | h1
    · exact htp2 h1.symm
    · exact hppost h1
  have hgnotin : g ∉ t :: post := by
    intro h
    rcases List.mem_cons.mp h with h1 | h1
    · exact htg h1.symm
    · exact hgpost h1
  have hnewnotin : newKey ∉ t :: post := by
    intro h
    rcases List.mem_cons.mp h with h1 | h1
    · exact htnew h1.symm
    · exact hpostnew newKey h1 rfl
  have hst2p : st2 p = some { pnd with children := pre ++ [b] } := by
    rw [hfold2.2 p hpnotin, hst3, mapNode_ne _ _ _ _ hpnew, hstAp]
  have hst2g : st2 g = some gnd := by
    rw [hfold2.2 g hgnotin, hst3, mapNode_ne _ _ _ _ hgnew, hstAg]
  have hst2new : st2 newKey
      = some { kind := Kind.block, blockType := getNewBlockType pnd.blockType,
               children := t :: post, parent := none } := by
    rw [hfold2.2 newKey hnewnotin, hst3, mapNode_self, hstAnew]
    rfl
  -- inserting the new block after p in g
  have hremNew : removeFromParent st2 newKey = st2 := by
    simp only [removeFromParent, hst2new]
  have hidxp : idxOf p (gpre ++ p :: gpost) = gpre.length :=
    idxOf_append gpre p gpost hpgpre
  have hgtake : (gpre ++ p :: gpost).take (gpre.length + 1) = gpre ++ [p] :=
    take_append_cons gpre p gpost
  have hgdrop : (gpre ++ p :: gpost).drop (gpre.length + 1) = gpost := by
    have hre : gpre ++ p :: gpost = (gpre ++ [p]) ++ gpost := by simp
    rw [hre]
    have hlen2 : gpre.length + 1 = (gpre ++ [p]).length := by simp
    rw [hlen2, List.drop_left]
  set st5 := mapNode st2 g
    (fun x => { x with children := gpre ++ p :: newKey :: gpost }) with hst5
  set stF := mapNode st5 newKey (fun x => { x with parent := some g }) with hstF
  have hins : insertAfterNode st2 p newKey = .ok stF := by
    have hchild2 : childrenOf st2 g = gpre ++ p :: gpost := by
      simp only [childrenOf, hst2g, hgc]
    simp only [insertAfterNode, hst2p, hpg, hchild2, hidxp]
    simp only [spliceNode, List.foldl_cons, List.foldl_nil, hremNew, hst2g,
      hgc, List.take_zero, List.drop_zero, Nat.add_zero, hgtake, hgdrop]
    have hre2 : gpre ++ [p] ++ [newKey] ++ gpost
        = gpre ++ p :: newKey :: gpost := by
      simp
    rw [hre2]
  -- assemble the full call
  have hrun : blockTextInsertAfter st b t newKey = .ok (stF, newKey) := by
    simp only [blockTextInsertAfter, hb, hbp, hp, ht]
    rw [if_neg (by simp [hpk]), if_pos htk]
    simp only [← hst1, hsib, happ, ← hst2, hins]
  -- final observations
  have hstFp : stF p = some { pnd with children := pre ++ [b] } := by
    rw [hstF, mapNode_ne _ _ _ _ hpnew, hst5, mapNode_ne _ _ _ _ hpg2, hst2p]
  have hstFg : stF g
      = some { gnd with children := gpre ++ p :: newKey :: gpost } := by
    rw [hstF, mapNode_ne _ _ _ _ hgnew, hst5, mapNode_self, hst2g]
    rfl
  have hstFnew : stF newKey
      = some { kind := Kind.block, blockType := getNewBlockType pnd.blockType,
               children := t :: post, parent := some g } := by
    rw [hstF, mapNode_self, hst5, mapNode_ne _ _ _ _ (Ne.symm hgnew), hst2new]
    rfl
  refine ⟨stF, hrun, ?_, ?_, ?_, ?_, ?_⟩
  · simp only [childrenOf, hstFp]
  · exact ⟨_, hstFnew, rfl, rfl, rfl, rfl⟩
  · simp only [childrenOf, hstFg]
  · simp only [childrenOf, hstFp, hstFnew]
  · intro bt
    cases bt <;> rfl

end EL

/-- Concrete tree for C2: root 0, paragraph block 1 with BlockText 2 as its
only child, a fresh parentless BlockText 3 to insert, and 4 as the fresh
key for the block that the split creates. -/
def c2State : EL.State := fun k =>
  if k = 0 then some { kind := EL.Kind.root, children := [1] }
  else if k = 1 then
    some { kind := EL.Kind.block, children := [2], parent := some 0 }
  else if k = 2 then
    some { kind := EL.Kind.blockText, parent := some 1 }
  else if k = 3 then some { kind := EL.Kind.blockText }
  else none

/-- Counterexample for C2's parenthetical: after inserting BlockText 3 after
BlockText 2, the combined children of block 1 and the new block 4 are
[2, 3], while block 1's original child list was [2]; the combined list does
not equal the original list (the inserted node is new). -/
theorem c2_combined_children_counterexample :
    (EL.blockTextInsertAfter c2State 2 3 4).toOption.map
        (fun r => EL.childrenOf r.1 1 ++ EL.childrenOf r.1 4) = some [2, 3] ∧
    EL.childrenOf c2State 1 = [2] ∧ ([2, 3] : List EL.Key) ≠ [2] :=
  ⟨rfl, rfl, by decide⟩

/-- Witness for C2 (amended): splitting the paragraph block of `c2State` at
its BlockText yields the new sibling block 4 holding exactly the inserted
BlockText, with the expected types and child lists. -/
theorem c2_blocktext_split_amended_witness :
    ∃ stF, EL.blockTextInsertAfter c2State 2 3 4 = .ok (stF, 4) ∧
      EL.childrenOf stF 1 = [] ++ [2] ∧
      (∃ nn, stF 4 = some nn ∧ nn.children = 3 :: [] ∧
        nn.kind = EL.Kind.block ∧ nn.parent = some 0 ∧
        nn.blockType = EL.getNewBlockType
          ({ kind := EL.Kind.block, children := [2],
             parent := some 0 } : EL.Node).blockType) ∧
      EL.childrenOf stF 0 = [] ++ 1 :: 4 :: [] ∧
      EL.childrenOf stF 1 ++ EL.childrenOf stF 4 = [] ++ [2] ++ 3 :: [] ∧
      (∀ bt : EL.BlockType, EL.getNewBlockType bt =
        if bt = EL.BlockType.bulleted_list_item
            ∨ bt = EL.BlockType.numbered_list_item
            ∨ bt = EL.BlockType.to_do
        then bt else EL.BlockType.paragraph) :=
  EL.c2_blocktext_split_amended c2State 2 3 4 1 0
    { kind := EL.Kind.blockText, parent := some 1 }
    { kind := EL.Kind.block, children := [2], parent := some 0 }
    { kind := EL.Kind.root, children := [1] }
    { kind := EL.Kind.blockText }
    [] [] [] []
    rfl rfl rfl rfl rfl rfl rfl rfl rfl rfl rfl rfl
    (by decide) (by decide)
    (by intro k hk; cases hk) (by intro k hk; cases hk)
    (by decide) (by decide) (by decide)
    (by decide) (by decide) (by decide) (by decide)

namespace BL

abbrev Key := Nat

/-- A node of the intrusive child-block model of src/unnamed/part_004.
`prev`/`next` are the sibling links; `firstBlock`/`lastBlock`/`blocksSize`
are the child-block list header of a `BlockNode`; `first`/`last`/`size` are
the ordinary lexical child-list header fields that the core
`removeFromParent` adjusts on the parent.  `nextBlock` is the field that
line 210 of the source writes (`writablePrevNode.__nextBlock = ...`): it is
declared nowhere in the class and nothing ever reads it. -/
structure BNode where
  parent : Option Key := none
  prev : Option Key := none
  next : Option Key := none
  nextBlock : Option Key := none
  firstBlock : Option Key := none
  lastBlock : Option Key := none
  blocksSize : Int := 0
  first : Option Key := none
  last : Option Key := none
  size : Int := 0
  deriving DecidableEq, Repr

/-- A pending version of the node map. -/
abbrev BState := Key → Option BNode

def upd (st : BState) (k : Key) (f : BNode → BNode) : BState :=
  fun j => if j = k then (st j).map f else st j

/-- Resolves a sibling link like `$getNodeByKey`: a link to a key missing
from the map behaves as null. -/
def getSibBy (f : BNode → Option Key) (st : BState) (k : Key) : Option Key :=
  match st k with
  | some nd =>
    match f nd with
    | some n => if (st n).isSome then some n else none
    | none => none
  | none => none

/-- Translated from `getNextSibling`. -/
def getNextSib (st : BState) (k : Key) : Option Key :=
  getSibBy (fun nd => nd.next) st k

/-- Translated from `getPreviousSibling`. -/
def getPrevSib (st : BState) (k : Key) : Option Key :=
  getSibBy (fun nd => nd.prev) st k

/-- Translated from `getFirstChildBlock`: the `__firstBlock` link resolved
through the map. -/
def getFirstChildBlockM (st : BState) (self : Key) : Option Key :=
  match st self with
  | some nd =>
    match nd.firstBlock with
    | some f => if (st f).isSome then some f else none
    | none => none
  | none => none

/-- Translated from `getLastChildBlock`. -/
def getLastChildBlockM (st : BState) (self : Key) : Option Key :=
  match st self with
  | some nd =>
    match nd.lastBlock with
    | some l => if (st l).isSome then some l else none
    | none => none
  | none => none

/-- Follow a sibling link a given number of steps (the `while` walks of
`getChildBlockAtIndex`). -/
def walkBy (f : BNode → Option Key) (st : BState) : Option Key → Nat → Option Key
  | k, 0 => k
  | none, _ + 1 => none
  | some k, n + 1 => walkBy f st (getSibBy f st k) n

/-- Translated from `getChildBlockAtIndex` (src/unnamed/part_004, lines
109-135): search from the front when `index < size / 2` (for integer values
this equals `2 * index < size`), else walk down from the back starting at
`i = size - 1`; if `i` starts below `index` the loop body never runs and
the result is null. -/
def getChildBlockAtIndex (st : BState) (self : Key) (index : Nat) : Option Key :=
  match st self with
  | none => none
  | some nd =>
    let size := nd.blocksSize
    if 2 * (index : Int) < size then
      walkBy (fun nd => nd.next) st (getFirstChildBlockM st self) index
    else if size - 1 < (index : Int) then none
    else walkBy (fun nd => nd.prev) st (getLastChildBlockM st self)
      ((size - 1 - (index : Int)).toNat)

inductive SpliceErr
  | typeError
  | siblingNotFound
  | appendSelf
  | nodeNotFound
  deriving DecidableEq, Repr

/-- Modelled from the spec (§4.2): `removeFromParent` of the lexical core
unlinks a node from its parent's ordinary child list, patching the sibling
links and the parent's `first`/`last`/`size` header (not the child-block
header); a missing parent key resolves to null and nothing happens. -/
def removeFromParentB (st : BState) (k : Key) : BState :=
  match st k with
  | none => st
  | some nd =>
    match nd.parent with
    | none => st
    | some p =>
      match st p with
      | none => st
      | some _ =>
        let prev := nd.prev
        let next := nd.next
        let st1 := match prev with
          | some pk => upd st pk (fun x => { x with next := next })
          | none => upd st p (fun x => { x with first := next })
        let st2 := match next with
          | some nk => upd st1 nk (fun x => { x with prev := prev })
          | none => upd st1 p (fun x => { x with last := prev })
        let st3 := upd st2 k
          (fun x => { x with prev := none, next := none, parent := none })
        upd st3 p (fun x => { x with size := x.size - 1 })

/-- Translated from the deletion loop of `spliceChildBlocks` (lines
180-190): the next sibling is read before the node is unlinked; a missing
sibling raises the `splice: sibling not found` invariant. -/
def deleteLoop (st : BState) (cur : Option Key) :
    Nat → List Key → Except SpliceErr (BState × List Key)
  | 0, acc => .ok (st, acc.reverse)
  | n + 1, acc =>
    match cur with
    | none => .error SpliceErr.siblingNotFound
    | some k =>
      match st k with
      | none => .error SpliceErr.nodeNotFound
      | some _ =>
        let nxt := getNextSib st k
        let st1 := removeFromParentB st k
        deleteLoop st1 nxt n (k :: acc)

/-- Translated from the insertion loop of `spliceChildBlocks` (lines
193-220), write for write: when the node to insert is the current
`prevNode`, both `prevNode` and `nodeBeforeRange` shift back one sibling;
`newSize` is decremented for nodes already parented by `self`; the node is
unlinked; then either `self.__firstBlock` or — via the undeclared
`__nextBlock` field — the previous node is pointed at it and its `__prev`
is set; inserting `self` itself raises the `append: attempting to append
self` invariant after those writes; finally the parent is set. -/
def insertLoop (st : BState) (selfKey : Key)
    (prevNode nodeBeforeRange : Option Key) (newSize : Int) (acc : List Key) :
    List Key →
    Except SpliceErr (BState × Option Key × Option Key × Int × List Key)
  | [] => .ok (st, prevNode, nodeBeforeRange, newSize, acc.reverse)
  | k :: rest =>
    let moved : Option Key × Option Key :=
      match prevNode with
      | some pk =>
        if k = pk then (getPrevSib st pk, getPrevSib st pk)
        else (some pk, nodeBeforeRange)
      | none => (none, nodeBeforeRange)
    let prevNode2 := moved.1
    let nodeBeforeRange2 := moved.2
    match st k with
    | none => .error SpliceErr.nodeNotFound
    | some knd =>
      let newSize2 := if knd.parent = some selfKey then newSize - 1 else newSize
      let st2 := removeFromParentB st k
      let st3 := match prevNode2 with
        | none =>
          upd (upd st2 selfKey (fun x => { x with firstBlock := some k })) k
            (fun x => { x with prev := none })
        | some pk =>
          upd (upd st2 pk (fun x => { x with nextBlock := some k })) k
            (fun x => { x with prev := some pk })
      if k = selfKey then .error SpliceErr.appendSelf
      else
        let st4 := upd st3 k (fun x => { x with parent := some selfKey })
        insertLoop st4 selfKey (some k) nodeBeforeRange2 newSize2 (k :: acc)
          rest

structure Point where
  key : Key
  offset : Nat
  deriving DecidableEq, Repr

structure Sel where
  anchor : Point
  focus : Point
  deriving DecidableEq, Repr

/-- Translated from `isPointRemoved` (src/unnamed/part_004, lines 291-305):
walk the ancestor chain from the point's node; the point counts as removed
when some node on the chain is in the removed set and not in the inserted
set.  The fuel bounds the walk (the source would loop forever on a cyclic
parent chain). -/
def isPointRemoved (st : BState) :
    Nat → Key → List Key → List Key → Bool
  | 0, _, _, _ => false
  | fuel + 1, k, removed, inserted =>
    match st k with
    | none => false
    | some nd =>
      if k ∈ removed ∧ k ∉ inserted then true
      else
        match nd.parent with
        | none => false
        | some p => isPointRemoved st fuel p removed inserted

/-- Modelled from the spec (§4.3): `moveSelectionPointToSibling` of the
lexical core (LexicalSelection, outside the provided sources) relocates a
removed point to the nearest still-present neighbor — the node immediately
before the deleted range if any, else the node immediately after it, else
the parent itself. -/
def movePoint (_st : BState) (parent : Key) (before after : Option Key)
    (_pt : Point) : Point :=
  match before with
  | some b => { key := b, offset := 0 }
  | none =>
    match after with
    | some a => { key := a, offset := 0 }
    | none => { key := parent, offset := 0 }

structure SpliceResult where
  st : BState
  sel : Option Sel
  removedKeys : List Key
  insertedKeys : List Key
  nodeBeforeRange : Option Key
  nodeAfterRange : Option Key
  anchorRemoved : Bool
  focusRemoved : Bool

/-- Translated from `BlockNode.spliceChildBlocks` (src/unnamed/part_004,
lines 149-278), step by step: size bookkeeping, `nodeAfterRange` and
`nodeBeforeRange` computation, the deletion loop (whose
`this.getFirstBlockChild()` call names a method that exists on no class —
the class defines `getFirstChildBlock` — and therefore throws a TypeError,
modelled as `SpliceErr.typeError`), the insertion loop, the end fix-up of
`__next`/`__lastBlock`/`__prev`, the `__blocksSize` write, and the
selection adjustment.  The cleanup branch
`newSize === 0 && !this.canBeEmpty() && !$isRootOrShadowRoot(this)` is
unreachable because this `BlockNode` does not override the `ElementNode`
default `canBeEmpty() === true`, so `this.remove()` is not modelled.  The
result carries the run's removed/inserted keys, range neighbors and the
two `isPointRemoved` outcomes as observable artifacts. -/
def spliceChildBlocks (st : BState) (fuel : Nat) (selfKey : Key)
    (start deleteCount : Nat) (nodesToInsert : List Key) (sel : Option Sel) :
    Except SpliceErr SpliceResult :=
  match st selfKey with
  | none => .error SpliceErr.nodeNotFound
  | some selfNode =>
    let oldSize : Int := selfNode.blocksSize
    let nodeAfterRange := getChildBlockAtIndex st selfKey (start + deleteCount)
    let newSize0 : Int := oldSize - deleteCount + nodesToInsert.length
    let nodeBeforeRange0 : Option Key :=
      if start ≠ 0 then
        if (start : Int) = oldSize then getLastChildBlockM st selfKey
        else
          match getChildBlockAtIndex st selfKey start with
          | some node => getPrevSib st node
          | none => none
      else none
    let del : Except SpliceErr (BState × List Key) :=
      if deleteCount > 0 then
        match nodeBeforeRange0 with
        | none => .error SpliceErr.typeError
        | some b => deleteLoop st (getNextSib st b) deleteCount []
      else .ok (st, [])
    match del with
    | .error e => .error e
    | .ok (st1, removed) =>
      match insertLoop st1 selfKey nodeBeforeRange0 nodeBeforeRange0 newSize0
          [] nodesToInsert with
      | .error e => .error e
      | .ok (st2, prevNodeF, nodeBeforeRangeF, newSizeF, inserted) =>
        let st3 :=
          if ((start : Int) + deleteCount = oldSize) then
            match prevNodeF with
            | some pk =>
              upd (upd st2 pk (fun x => { x with next := none })) selfKey
                (fun x => { x with lastBlock := some pk })
            | none => st2
          else
            match nodeAfterRange with
            | some ak =>
              match prevNodeF with
              | some pk =>
                upd (upd st2 ak (fun x => { x with prev := some pk })) pk
                  (fun x => { x with next := some ak })
              | none => upd st2 ak (fun x => { x with prev := none })
            | none => st2
        let st4 := upd st3 selfKey (fun x => { x with blocksSize := newSizeF })
        if removed.isEmpty then
          .ok ⟨st4, sel, removed, inserted, nodeBeforeRangeF, nodeAfterRange,
            false, false⟩
        else
          match sel with
          | none =>
            .ok ⟨st4, none, removed, inserted, nodeBeforeRangeF,
              nodeAfterRange, false, false⟩
          | some s =>
            let aRemoved := isPointRemoved st4 fuel s.anchor.key removed
              inserted
            let s1 := if aRemoved then
                { s with anchor := movePoint st4 selfKey nodeBeforeRangeF nodeAfterRange s.anchor }
              else s
            let fRemoved := isPointRemoved st4 fuel s1.focus.key removed
              inserted
            let s2 := if fRemoved then
                { s1 with focus := movePoint st4 selfKey nodeBeforeRangeF nodeAfterRange s1.focus }
              else s1
            .ok ⟨st4, some s2, removed, inserted, nodeBeforeRangeF,
              nodeAfterRange, aRemoved, fRemoved⟩

end BL

namespace BL

/-- Collect the keys reached from an entry by repeatedly following `__next`
through the map, up to `fuel` steps (the traversal the spec's §3 invariants
quantify over). -/
def collectNext (st : BState) : Option Key → Nat → List Key
  | none, _ => []
  | some _, 0 => []
  | some k, n + 1 =>
    match st k with
    | none => []
    | some nd => k :: collectNext st nd.next n

/-- Decidable check of the child-block linked-list invariants of §3 for one
block: the cached `__blocksSize` equals the length of the `__next`-link
traversal starting at `__firstBlock`, that traversal ends at `__lastBlock`,
the first child block's `__prev` is null, and the last child block's
`__next` is null. -/
def blockListOK (st : BState) (self : Key) (fuel : Nat) : Bool :=
  match st self with
  | none => false
  | some nd =>
    let L := collectNext st nd.firstBlock fuel
    decide ((L.length : Int) = nd.blocksSize) &&
    decide (nd.lastBlock = L.getLast?) &&
    (match L.head? with
     | some h =>
       match st h with
       | some hnd => decide (hnd.prev = none)
       | none => false
     | none => true) &&
    (match L.getLast? with
     | some l =>
       match st l with
       | some lnd => decide (lnd.next = none)
       | none => false
     | none => true)

def isErr {ε α : Type} : Except ε α → Bool
  | .error _ => true
  | .ok _ => false

end BL

/-- A one-block tree: node 1 is a `BlockNode` whose single child block is
node 2; node 3 is a detached block, available for insertion. -/
def c1State : BL.BState := fun k =>
  if k = 1 then
    some { firstBlock := some 2, lastBlock := some 2, blocksSize := 1 }
  else if k = 2 then some { parent := some 1 }
  else if k = 3 then some {}
  else none

/-- C1: the claimed splice invariants fail on concrete in-range calls.
`spliceChildBlocks(1, 0, [3])` on a block with one child (so
`start + deleteCount = 1 ≤ 1`) succeeds, but afterwards the cached
`__blocksSize` is 2 while the `__next`-traversal from `__firstBlock` is
just `[2]` — node 3 was attached by writing the undeclared `__nextBlock`
field of node 2 (source line 210) instead of `__next`, so it is
unreachable and `__lastBlock` does not terminate the traversal; the
invariant checker reports false.  Moreover `spliceChildBlocks(0, 1, [])`
(also in range) evaluates `this.getFirstBlockChild()`, a method defined on
no class, and throws a TypeError instead of deleting the first child. -/
theorem c1_splice_invariant_failing_input :
    (BL.spliceChildBlocks c1State 9 1 1 0 [3] none).toOption.map
        (fun r => (BL.blockListOK r.st 1 9,
          (r.st 1).map (fun nd => nd.blocksSize),
          BL.collectNext r.st (some 2) 9))
      = some (false, some 2, [2])
    ∧ BL.spliceChildBlocks c1State 9 1 0 1 [] none
      = Except.error BL.SpliceErr.typeError
    ∧ (c1State 1).map (fun nd => nd.blocksSize) = some 1 :=
  ⟨rfl, rfl, rfl⟩

/-- A two-level tree: node 1 is a block whose single child block is node 2
(so node 1 is an ancestor of node 2). -/
def c7State : BL.BState := fun k =>
  if k = 1 then
    some { firstBlock := some 2, lastBlock := some 2, blocksSize := 1 }
  else if k = 2 then some { parent := some 1 }
  else none

/-- C7 counterexample: inserting a strict ancestor is not rejected.  Node 1
is the parent of node 2, yet `spliceChildBlocks(0, 0, [1])` on node 2
succeeds (`toOption` is `some`) and leaves node 1's parent as 2 while
node 2's parent is still 1 — a parent cycle, with state mutated and no
failure. -/
theorem c7_cyclic_insertion_counterexample :
    (BL.spliceChildBlocks c7State 9 2 0 0 [1] none).toOption.map
        (fun r => ((r.st 1).map (fun nd => nd.parent),
          (r.st 2).map (fun nd => nd.parent)))
      = some (some (some 2), some (some 1))
    ∧ (c7State 2).map (fun nd => nd.parent) = some (some 1) :=
  ⟨rfl, rfl⟩

namespace BL

/-- Every run of the insertion loop whose remaining list still contains the
target key itself ends in an error: the `append: attempting to append
self` invariant fires when that key's iteration is reached (after the
state writes of earlier iterations), and any earlier failure is an error
as well. -/
theorem insertLoop_self_mem_err (selfKey : Key) :
    ∀ (ks : List Key) (st : BState) (pn nbr : Option Key) (ns : Int)
      (acc : List Key), selfKey ∈ ks →
      isErr (insertLoop st selfKey pn nbr ns acc ks) = true := by
  intro ks
  induction ks with
  | nil => intro st pn nbr ns acc h; cases h
  | cons k rest ih =>
    intro st pn nbr ns acc h
    simp only [insertLoop]
    cases hstk : st k with
    | none => rfl
    | some knd =>
      by_cases hk : k = selfKey
      · simp only [if_pos hk]; rfl
      · simp only [if_neg hk]
        apply ih
        rcases List.mem_cons.mp h with h1 | h1
        · exact absurd h1.symm hk
        · exact h1
end BL

/-- C7 (amended): the only cycle-related guard in `spliceChildBlocks` is
the `append: attempting to append self` invariant inside the insertion
loop, so whenever `nodesToInsert` contains the target block's own key the
call fails (after the earlier iterations' state writes); inserting a
strict ancestor is not detected at all. -/
theorem c7_cyclic_insertion_amended (st : BL.BState) (fuel selfKey start dc : Nat)
    (inserts : List BL.Key) (sel : Option BL.Sel)
    (h : selfKey ∈ inserts) :
    BL.isErr (BL.spliceChildBlocks st fuel selfKey start dc inserts sel)
      = true := by
  simp only [BL.spliceChildBlocks]
  split
  · rfl
  · rename_i selfNode hself
    split
    · rfl
    · rename_i st1 removed heqdel
      split
      · rfl
      · rename_i st2 pn2 nbr2 nsz2 ins2 heqins
        exfalso
        have herr : BL.isErr
            (Except.ok (st2, pn2, nbr2, nsz2, ins2) :
              Except BL.SpliceErr (BL.BState × Option BL.Key ×
                Option BL.Key × Int × List BL.Key)) = true := by
          rw [← heqins]
          exact BL.insertLoop_self_mem_err selfKey inserts _ _ _ _ [] h
        simp [BL.isErr] at herr

/-- Closed instance for `c7_cyclic_insertion_amended`: inserting node 2
into itself fails. -/
theorem c7_cyclic_insertion_amended_witness :
    (2 : BL.Key) ∈ ([2] : List BL.Key) ∧
      BL.isErr (BL.spliceChildBlocks c7State 9 2 0 0 [2] none) = true :=
  ⟨List.mem_singleton.mpr rfl,
    c7_cyclic_insertion_amended c7State 9 2 0 0 [2] none
      (List.mem_singleton.mpr rfl)⟩

namespace BL

/-- The first key of `as`, else `t`: the `__next` value a chain node must
carry when `as` are its following siblings and `t` follows them all. -/
def nextAfter (as : List Key) (t : Option Key) : Option Key :=
  match as with
  | b :: _ => some b
  | [] => t

/-- The last key of `u`, else `p`: the predecessor of whatever follows
`u` when `p` precedes all of `u`. -/
def lastFrom (u : List Key) (p : Option Key) : Option Key :=
  match u.getLast? with
  | some x => some x
  | none => p

/-- `chainIsBy f st e L`: starting from link value `e` and repeatedly
resolving keys through `st` and following field `f` visits exactly the
keys of `L` and then stops at a null link. -/
def chainIsBy (f : BNode → Option Key) (st : BState) :
    Option Key → List Key → Bool
  | none, [] => true
  | none, _ :: _ => false
  | some _, [] => false
  | some k, a :: as =>
    decide (k = a) &&
    (match st k with
     | some nd => chainIsBy f st (f nd) as
     | none => false)

/-- Pointwise `__next`-link correctness of a key segment: each listed key
is present and its `__next` is the following listed key, the last one's
`__next` being `t`. -/
def nextsOK (st : BState) : List Key → Option Key → Bool
  | [], _ => true
  | a :: as, t =>
    (match st a with
     | some nd => decide (nd.next = nextAfter as t)
     | none => false) && nextsOK st as t

/-- Pointwise `__prev`-link correctness: each listed key is present and
its `__prev` is the preceding listed key, the first one's `__prev` being
`p`. -/
def prevsOK (st : BState) : Option Key → List Key → Bool
  | _, [] => true
  | p, a :: as =>
    (match st a with
     | some nd => decide (nd.prev = p)
     | none => false) && prevsOK st (some a) as

/-- Well-formedness of the child-block list of block `self`: `L` is the
forward traversal from `__firstBlock`, the backward traversal from
`__lastBlock` is its reverse, the pointwise `__prev` links agree, the
cached `__blocksSize` is its length, `__lastBlock` is its last key, the
keys are distinct, exclude `self`, and each child's `__parent` is
`self`. -/
def wfBlockList (st : BState) (self : Key) (L : List Key) : Prop :=
  ∃ nd, st self = some nd ∧
    chainIsBy (fun x => x.next) st nd.firstBlock L = true ∧
    chainIsBy (fun x => x.prev) st nd.lastBlock L.reverse = true ∧
    prevsOK st none L = true ∧
    nd.blocksSize = (L.length : Int) ∧
    nd.lastBlock = L.getLast? ∧
    L.Nodup ∧ self ∉ L ∧
    (∀ k ∈ L, ∃ knd, st k = some knd ∧ knd.parent = some self)

theorem upd_self (st : BState) (k : Key) (f : BNode → BNode) :
    upd st k f k = (st k).map f := by
  simp [upd]

theorem upd_ne (st : BState) (k : Key) (f : BNode → BNode) (j : Key)
    (h : j ≠ k) : upd st k f j = st j := by
  simp [upd, h]

theorem upd_isSome (st : BState) (k : Key) (f : BNode → BNode) (j : Key) :
    ((upd st k f) j).isSome = (st j).isSome := by
  unfold upd
  by_cases h : j = k
  · simp [h]
  · simp [h]

theorem upd_map_proj {β : Type} (P : BNode → β) (f : BNode → BNode)
    (hf : ∀ nd, P (f nd) = P nd) (st : BState) (k j : Key) :
    ((upd st k f) j).map P = (st j).map P := by
  unfold upd
  by_cases h : j = k
  · simp only [h, if_pos rfl, Option.map_map]
    cases st k with
    | none => rfl
    | some nd => simp [Function.comp, hf]
  · simp [h]

theorem chainIsBy_nil (f : BNode → Option Key) (st : BState)
    (e : Option Key) (h : chainIsBy f st e [] = true) : e = none := by
  cases e with
  | none => rfl
  | some k => simp [chainIsBy] at h

theorem chainIsBy_cons (f : BNode → Option Key) (st : BState)
    (e : Option Key) (a : Key) (as : List Key)
    (h : chainIsBy f st e (a :: as) = true) :
    e = some a ∧ ∃ nd, st a = some nd ∧ chainIsBy f st (f nd) as = true := by
  cases e with
  | none => simp [chainIsBy] at h
  | some k =>
    simp only [chainIsBy, Bool.and_eq_true, decide_eq_true_eq] at h
    obtain ⟨hk, h2⟩ := h
    subst hk
    refine ⟨rfl, ?_⟩
    cases hstk : st k with
    | none => rw [hstk] at h2; simp at h2
    | some nd => rw [hstk] at h2; exact ⟨nd, rfl, h2⟩

theorem walkBy_none (f : BNode → Option Key) (st : BState) (i : Nat) :
    walkBy f st none i = none := by
  cases i with
  | zero => rfl
  | succ n => rfl

/-- Walking `i` steps along a correct chain lands on the `i`-th listed
key. -/
theorem walkBy_chain (f : BNode → Option Key) (st : BState) :
    ∀ (i : Nat) (L : List Key) (e : Option Key),
      chainIsBy f st e L = true → walkBy f st e i = L[i]? := by
  intro i
  induction i with
  | zero =>
    intro L e h
    cases L with
    | nil => rw [chainIsBy_nil f st e h]; simp [walkBy]
    | cons a as => rw [(chainIsBy_cons f st e a as h).1]; simp [walkBy]
  | succ n ih =>
    intro L e h
    cases L with
    | nil => rw [chainIsBy_nil f st e h, walkBy_none]; simp
    | cons a as =>
      obtain ⟨he, nd, hnd, hchain⟩ := chainIsBy_cons f st e a as h
      subst he
      have hstep : walkBy f st (some a) (n + 1)
          = walkBy f st (getSibBy f st a) n := by
        simp [walkBy]
      rw [hstep]
      have hsib : getSibBy f st a = nextAfter as none := by
        simp only [getSibBy, hnd]
        cases has : as with
        | nil =>
          rw [has] at hchain
          rw [chainIsBy_nil f st (f nd) hchain]
          rfl
        | cons b bs =>
          rw [has] at hchain
          obtain ⟨hfb, bnd, hbnd, _⟩ := chainIsBy_cons f st (f nd) b bs hchain
          rw [hfb]
          simp [hbnd, nextAfter]
      cases as with
      | nil =>
        simp only [nextAfter] at hsib
        rw [hsib, walkBy_none]
        simp
      | cons b bs =>
        simp only [nextAfter] at hsib
        rw [hsib]
        obtain ⟨hfb, _⟩ := chainIsBy_cons f st (f nd) b bs hchain
        rw [hfb] at hchain
        rw [ih (b :: bs) (some b) hchain]
        simp

end BL

namespace BL

theorem nextAfter_append (u v : List Key) (t : Option Key) :
    nextAfter (u ++ v) t = nextAfter u (nextAfter v t) := by
  cases u with
  | nil => rfl
  | cons a u => rfl

theorem nextAfter_nil (t : Option Key) : nextAfter [] t = t := rfl

theorem nextsOK_append (st : BState) :
    ∀ (u v : List Key) (t : Option Key),
      nextsOK st (u ++ v) t
        = (nextsOK st u (nextAfter v t) && nextsOK st v t) := by
  intro u
  induction u with
  | nil => intro v t; simp [nextsOK]
  | cons a u ih =>
    intro v t
    simp only [List.cons_append, nextsOK, List.append_eq,
      nextAfter_append, ih, Bool.and_assoc]

theorem lastFrom_cons (a : Key) (u : List Key) (p : Option Key) :
    lastFrom (a :: u) p = lastFrom u (some a) := by
  cases u with
  | nil => rfl
  | cons c u =>
    rcases h : (c :: u).getLast? with _ | x
    · exact absurd (List.getLast?_eq_none_iff.mp h) (by simp)
    · simp [lastFrom, List.getLast?_cons_cons, h]

theorem prevsOK_append (st : BState) :
    ∀ (u : List Key) (p : Option Key) (v : List Key),
      prevsOK st p (u ++ v)
        = (prevsOK st p u && prevsOK st (lastFrom u p) v) := by
  intro u
  induction u with
  | nil => intro p v; simp [prevsOK, lastFrom]
  | cons a u ih =>
    intro p v
    simp only [List.cons_append, prevsOK, List.append_eq, ih,
      lastFrom_cons, Bool.and_assoc]

theorem chainIsBy_nextsOK (st : BState) :
    ∀ (L : List Key) (e : Option Key),
      chainIsBy (fun x => x.next) st e L = true →
      nextsOK st L none = true := by
  intro L
  induction L with
  | nil => intro e _; rfl
  | cons a as ih =>
    intro e h
    obtain ⟨_, nd, hnd, hchain⟩ := chainIsBy_cons _ st e a as h
    simp only [nextsOK, hnd, Bool.and_eq_true, decide_eq_true_eq]
    constructor
    · cases has : as with
      | nil =>
        rw [has] at hchain
        exact chainIsBy_nil _ st _ hchain
      | cons b bs =>
        rw [has] at hchain
        exact (chainIsBy_cons _ st _ b bs hchain).1
    · exact ih nd.next hchain

theorem nextsOK_congr (st st' : BState) :
    ∀ (L : List Key) (t : Option Key),
      (∀ j ∈ L, (st' j).map (fun nd => nd.next)
        = (st j).map (fun nd => nd.next)) →
      nextsOK st' L t = nextsOK st L t := by
  intro L
  induction L with
  | nil => intro t _; rfl
  | cons a as ih =>
    intro t h
    have hm := h a (by simp)
    simp only [nextsOK]
    rw [ih t (fun j hj => h j (by simp [hj]))]
    congr 1
    cases hsa : st a with
    | none =>
      cases hsa' : st' a with
      | none => rfl
      | some nd' => rw [hsa, hsa'] at hm; simp at hm
    | some nd =>
      cases hsa' : st' a with
      | none => rw [hsa, hsa'] at hm; simp at hm
      | some nd' =>
        rw [hsa, hsa'] at hm
        simp only [Option.map_some'] at hm
        rw [Option.some.injEq] at hm
        simp [hm]

theorem prevsOK_congr (st st' : BState) :
    ∀ (L : List Key) (p : Option Key),
      (∀ j ∈ L, (st' j).map (fun nd => nd.prev)
        = (st j).map (fun nd => nd.prev)) →
      prevsOK st' p L = prevsOK st p L := by
  intro L
  induction L with
  | nil => intro p _; rfl
  | cons a as ih =>
    intro p h
    have hm := h a (by simp)
    simp only [prevsOK]
    rw [ih (some a) (fun j hj => h j (by simp [hj]))]
    congr 1
    cases hsa : st a with
    | none =>
      cases hsa' : st' a with
      | none => rfl
      | some nd' => rw [hsa, hsa'] at hm; simp at hm
    | some nd =>
      cases hsa' : st' a with
      | none => rw [hsa, hsa'] at hm; simp at hm
      | some nd' =>
        rw [hsa, hsa'] at hm
        simp only [Option.map_some'] at hm
        rw [Option.some.injEq] at hm
        simp [hm]

theorem getq_drop {α : Type} (l : List α) :
    ∀ (n i : Nat), (l.drop n)[i]? = l[n + i]? := by
  induction l with
  | nil => intro n i; simp
  | cons a l ih =>
    intro n i
    cases n with
    | zero => simp
    | succ n =>
      rw [List.drop_succ_cons, ih n i]
      simp [Nat.succ_add]

theorem firstEntry_wf (st : BState) (self : Key) (L : List Key)
    (nd : BNode) (hself : st self = some nd)
    (hN : chainIsBy (fun x => x.next) st nd.firstBlock L = true) :
    getFirstChildBlockM st self = nd.firstBlock := by
  simp only [getFirstChildBlockM, hself]
  cases L with
  | nil => rw [chainIsBy_nil _ st _ hN]
  | cons a as =>
    obtain ⟨he, and, hand, _⟩ := chainIsBy_cons _ st _ a as hN
    simp [he, hand]

theorem lastEntry_wf (st : BState) (self : Key) (L : List Key)
    (nd : BNode) (hself : st self = some nd)
    (hP : chainIsBy (fun x => x.prev) st nd.lastBlock L.reverse = true) :
    getLastChildBlockM st self = nd.lastBlock := by
  simp only [getLastChildBlockM, hself]
  cases hrev : L.reverse with
  | nil => rw [hrev] at hP; rw [chainIsBy_nil _ st _ hP]
  | cons a as =>
    rw [hrev] at hP
    obtain ⟨he, and, hand, _⟩ := chainIsBy_cons _ st _ a as hP
    simp [he, hand]

/-- Under the traversal clauses of well-formedness,
`getChildBlockAtIndex` returns exactly the `i`-th key of the child-block
list for every index (and `none` out of range). -/
theorem getChildBlockAtIndex_wf (st : BState) (self : Key) (L : List Key)
    (nd : BNode) (hself : st self = some nd)
    (hN : chainIsBy (fun x => x.next) st nd.firstBlock L = true)
    (hP : chainIsBy (fun x => x.prev) st nd.lastBlock L.reverse = true)
    (hsz : nd.blocksSize = (L.length : Int)) :
    ∀ i : Nat, getChildBlockAtIndex st self i = L[i]? := by
  intro i
  simp only [getChildBlockAtIndex, hself, hsz]
  by_cases h1 : 2 * (i : Int) < (L.length : Int)
  · rw [if_pos h1, firstEntry_wf st self L nd hself hN]
    exact walkBy_chain _ st i L nd.firstBlock hN
  · rw [if_neg h1]
    by_cases h2 : (L.length : Int) - 1 < (i : Int)
    · rw [if_pos h2]
      symm
      exact List.getElem?_eq_none (by omega)
    · rw [if_neg h2, lastEntry_wf st self L nd hself hP]
      rw [walkBy_chain _ st _ L.reverse nd.lastBlock hP]
      have hi : i < L.length := by omega
      have hT : ((L.length : Int) - 1 - (i : Int)).toNat
          = L.length - 1 - i := by omega
      rw [hT]
      have hj : L.length - 1 - i < L.length := by omega
      rw [List.getElem?_reverse hj]
      have : L.length - 1 - (L.length - 1 - i) = i := by omega
      rw [this]

end BL

namespace BL

theorem removeFromParentB_noparent (st : BState) (k : Key) (knd : BNode)
    (hk : st k = some knd) (hp : knd.parent = none) :
    removeFromParentB st k = st := by
  simp [removeFromParentB, hk, hp]

theorem removeFromParentB_isSome (st : BState) (k j : Key) :
    ((removeFromParentB st k) j).isSome = (st j).isSome := by
  cases hk : st k with
  | none => simp [removeFromParentB, hk]
  | some nd =>
    cases hp : nd.parent with
    | none => simp [removeFromParentB, hk, hp]
    | some p =>
      cases hsp : st p with
      | none => simp [removeFromParentB, hk, hp, hsp]
      | some pnd =>
        cases hpx : nd.prev <;> cases hnx : nd.next <;>
          simp [removeFromParentB, hk, hp, hsp, hpx, hnx, upd_isSome]

/-- One unlink step with a next sibling `nk`, written out:
`removeFromParentB` patches `b.next`, the next sibling's `prev`, clears
the node's own links, and decrements the parent's `size`. -/
theorem removeFromParentB_char_some (st : BState) (s b selfKey nk : Key)
    (snd : BNode) (hs : st s = some snd)
    (hpar : snd.parent = some selfKey) (hprev : snd.prev = some b)
    (hpres : (st selfKey).isSome = true) (hnx : snd.next = some nk) :
    removeFromParentB st s =
      upd (upd (upd (upd st b (fun x => { x with next := some nk })) nk
        (fun x => { x with prev := some b }))
        s (fun x => { x with prev := none, next := none, parent := none }))
        selfKey (fun x => { x with size := x.size - 1 }) := by
  obtain ⟨v, hv⟩ := Option.isSome_iff_exists.mp hpres
  simp only [removeFromParentB, hs, hpar, hprev, hnx, hv]

/-- One unlink step with no next sibling: `removeFromParentB` patches
`b.next`, the parent's `last`, clears the node's own links, and
decrements the parent's `size`. -/
theorem removeFromParentB_char_none (st : BState) (s b selfKey : Key)
    (snd : BNode) (hs : st s = some snd)
    (hpar : snd.parent = some selfKey) (hprev : snd.prev = some b)
    (hpres : (st selfKey).isSome = true) (hnx : snd.next = none) :
    removeFromParentB st s =
      upd (upd (upd (upd st b (fun x => { x with next := none })) selfKey
        (fun x => { x with last := some b }))
        s (fun x => { x with prev := none, next := none, parent := none }))
        selfKey (fun x => { x with size := x.size - 1 }) := by
  obtain ⟨v, hv⟩ := Option.isSome_iff_exists.mp hpres
  simp only [removeFromParentB, hs, hpar, hprev, hnx, hv]

theorem removeFromParentB_at_b (st : BState) (s b selfKey : Key)
    (snd : BNode) (hs : st s = some snd)
    (hpar : snd.parent = some selfKey) (hprev : snd.prev = some b)
    (hpres : (st selfKey).isSome = true)
    (hbs2 : b ≠ s) (hbself : b ≠ selfKey)
    (hnkb : ∀ nk, snd.next = some nk → b ≠ nk) :
    (removeFromParentB st s) b
      = (st b).map (fun x => { x with next := snd.next }) := by
  cases hnx : snd.next with
  | none =>
    rw [removeFromParentB_char_none st s b selfKey snd hs hpar hprev hpres
      hnx]
    rw [upd_ne _ _ _ _ hbself, upd_ne _ _ _ _ hbs2,
      upd_ne _ _ _ _ hbself, upd_self]
  | some nk =>
    rw [removeFromParentB_char_some st s b selfKey nk snd hs hpar hprev
      hpres hnx]
    rw [upd_ne _ _ _ _ hbself, upd_ne _ _ _ _ hbs2,
      upd_ne _ _ _ _ (hnkb nk hnx), upd_self]

theorem removeFromParentB_frame (st : BState) (s b selfKey : Key)
    (snd : BNode) (hs : st s = some snd)
    (hpar : snd.parent = some selfKey) (hprev : snd.prev = some b)
    (hpres : (st selfKey).isSome = true) (j : Key)
    (hjb : j ≠ b) (hjs : j ≠ s) (hjself : j ≠ selfKey)
    (hjnk : ∀ nk, snd.next = some nk → j ≠ nk) :
    (removeFromParentB st s) j = st j := by
  cases hnx : snd.next with
  | none =>
    rw [removeFromParentB_char_none st s b selfKey snd hs hpar hprev hpres
      hnx]
    rw [upd_ne _ _ _ _ hjself, upd_ne _ _ _ _ hjs,
      upd_ne _ _ _ _ hjself, upd_ne _ _ _ _ hjb]
  | some nk =>
    rw [removeFromParentB_char_some st s b selfKey nk snd hs hpar hprev
      hpres hnx]
    rw [upd_ne _ _ _ _ hjself, upd_ne _ _ _ _ hjs,
      upd_ne _ _ _ _ (hjnk nk hnx), upd_ne _ _ _ _ hjb]

theorem removeFromParentB_next_proj (st : BState) (s b selfKey : Key)
    (snd : BNode) (hs : st s = some snd)
    (hpar : snd.parent = some selfKey) (hprev : snd.prev = some b)
    (hpres : (st selfKey).isSome = true) (j : Key)
    (hjs : j ≠ s) (hjb : j ≠ b) :
    ((removeFromParentB st s) j).map (fun x => x.next)
      = (st j).map (fun x => x.next) := by
  cases hnx : snd.next with
  | none =>
    rw [removeFromParentB_char_none st s b selfKey snd hs hpar hprev hpres
      hnx]
    rw [upd_map_proj (fun x => x.next)
      (fun x => { x with size := x.size - 1 }) (fun nd => rfl)]
    rw [upd_ne _ _ _ _ hjs]
    rw [upd_map_proj (fun x => x.next)
      (fun x => { x with last := some b }) (fun nd => rfl)]
    rw [upd_ne _ _ _ _ hjb]
  | some nk =>
    rw [removeFromParentB_char_some st s b selfKey nk snd hs hpar hprev
      hpres hnx]
    rw [upd_map_proj (fun x => x.next)
      (fun x => { x with size := x.size - 1 }) (fun nd => rfl)]
    rw [upd_ne _ _ _ _ hjs]
    rw [upd_map_proj (fun x => x.next)
      (fun x => { x with prev := some b }) (fun nd => rfl)]
    rw [upd_ne _ _ _ _ hjb]

theorem removeFromParentB_prev_proj (st : BState) (s b selfKey : Key)
    (snd : BNode) (hs : st s = some snd)
    (hpar : snd.parent = some selfKey) (hprev : snd.prev = some b)
    (hpres : (st selfKey).isSome = true) (j : Key)
    (hjs : j ≠ s) (hjnk : ∀ nk, snd.next = some nk → j ≠ nk) :
    ((removeFromParentB st s) j).map (fun x => x.prev)
      = (st j).map (fun x => x.prev) := by
  cases hnx : snd.next with
  | none =>
    rw [removeFromParentB_char_none st s b selfKey snd hs hpar hprev hpres
      hnx]
    rw [upd_map_proj (fun x => x.prev)
      (fun x => { x with size := x.size - 1 }) (fun nd => rfl)]
    rw [upd_ne _ _ _ _ hjs]
    rw [upd_map_proj (fun x => x.prev)
      (fun x => { x with last := some b }) (fun nd => rfl)]
    rw [upd_map_proj (fun x => x.prev)
      (fun x => { x with next := (none : Option Key) }) (fun nd => rfl)]
  | some nk =>
    rw [removeFromParentB_char_some st s b selfKey nk snd hs hpar hprev
      hpres hnx]
    rw [upd_map_proj (fun x => x.prev)
      (fun x => { x with size := x.size - 1 }) (fun nd => rfl)]
    rw [upd_ne _ _ _ _ hjs]
    rw [upd_ne _ _ _ _ (hjnk nk hnx)]
    rw [upd_map_proj (fun x => x.prev)
      (fun x => { x with next := some nk }) (fun nd => rfl)]

theorem removeFromParentB_at_nk (st : BState) (s b selfKey : Key)
    (snd : BNode) (hs : st s = some snd)
    (hpar : snd.parent = some selfKey) (hprev : snd.prev = some b)
    (hpres : (st selfKey).isSome = true) (nk : Key)
    (hnx : snd.next = some nk) (hnks : nk ≠ s) (hnkself : nk ≠ selfKey)
    (hnkb : nk ≠ b) :
    (removeFromParentB st s) nk
      = (st nk).map (fun x => { x with prev := some b }) := by
  rw [removeFromParentB_char_some st s b selfKey nk snd hs hpar hprev
    hpres hnx]
  rw [upd_ne _ _ _ _ hnkself, upd_ne _ _ _ _ hnks,
    upd_self, upd_ne _ _ _ _ hnkb]

theorem removeFromParentB_parent_proj (st : BState) (s b selfKey : Key)
    (snd : BNode) (hs : st s = some snd)
    (hpar : snd.parent = some selfKey) (hprev : snd.prev = some b)
    (hpres : (st selfKey).isSome = true) (j : Key) (hjs : j ≠ s) :
    ((removeFromParentB st s) j).map (fun x => x.parent)
      = (st j).map (fun x => x.parent) := by
  cases hnx : snd.next with
  | none =>
    rw [removeFromParentB_char_none st s b selfKey snd hs hpar hprev hpres
      hnx]
    rw [upd_map_proj (fun x => x.parent)
      (fun x => { x with size := x.size - 1 }) (fun nd => rfl)]
    rw [upd_ne _ _ _ _ hjs]
    rw [upd_map_proj (fun x => x.parent)
      (fun x => { x with last := some b }) (fun nd => rfl)]
    rw [upd_map_proj (fun x => x.parent)
      (fun x => { x with next := (none : Option Key) }) (fun nd => rfl)]
  | some nk =>
    rw [removeFromParentB_char_some st s b selfKey nk snd hs hpar hprev
      hpres hnx]
    rw [upd_map_proj (fun x => x.parent)
      (fun x => { x with size := x.size - 1 }) (fun nd => rfl)]
    rw [upd_ne _ _ _ _ hjs]
    rw [upd_map_proj (fun x => x.parent)
      (fun x => { x with prev := some b }) (fun nd => rfl)]
    rw [upd_map_proj (fun x => x.parent)
      (fun x => { x with next := some nk }) (fun nd => rfl)]

end BL

namespace BL

/-- Characterization of the deletion loop of `spliceChildBlocks` run over
a well-linked segment `seg` preceded by sibling `b` and followed by
`tailHead`: it succeeds, removes exactly `seg`, rewires `b.next` to
`tailHead`, leaves every key outside `seg`, `b`, the parent and
`tailHead` untouched, and changes no key's presence in the map. -/
theorem deleteLoop_spec (selfKey b : Key) (tailHead : Option Key) :
    ∀ (seg : List Key) (st : BState) (bnd : BNode) (cur : Option Key)
      (acc : List Key),
      st b = some bnd →
      (st selfKey).isSome = true →
      bnd.next = nextAfter seg tailHead →
      nextsOK st seg tailHead = true →
      prevsOK st (some b) seg = true →
      (∀ k ∈ seg, ∃ knd, st k = some knd ∧ knd.parent = some selfKey) →
      seg.Nodup → b ∉ seg → selfKey ∉ seg → b ≠ selfKey →
      (∀ t, tailHead = some t → t ∉ seg ∧ t ≠ b ∧ t ≠ selfKey) →
      (seg = [] ∨ cur = seg.head?) →
      ∃ stD, deleteLoop st cur seg.length acc
          = .ok (stD, acc.reverse ++ seg)
        ∧ stD b = some { bnd with next := tailHead }
        ∧ (∀ j, j ∉ seg → j ≠ b → j ≠ selfKey →
            (∀ t, tailHead = some t → j ≠ t) → stD j = st j)
        ∧ (∀ j, (stD j).isSome = (st j).isSome) := by
  intro seg
  induction seg with
  | nil =>
    intro st bnd cur acc hb _ hbn _ _ _ _ _ _ _ _ _
    refine ⟨st, by simp [deleteLoop], ?_, fun j _ _ _ _ => rfl,
      fun j => rfl⟩
    rw [hb]
    simp only [nextAfter] at hbn
    rw [← hbn]
  | cons s rest ih =>
    intro st bnd cur acc hb hself hbn hnexts hprevs hpar hnd hbm hsm hbs ht
      hcur
    have hcur2 : cur = some s := by
      rcases hcur with h | h
      · exact absurd h (by simp)
      · simpa using h
    subst hcur2
    simp only [nextsOK, Bool.and_eq_true] at hnexts
    obtain ⟨hchk, hrestnext⟩ := hnexts
    have hS : ∃ snd, st s = some snd
        ∧ snd.next = nextAfter rest tailHead := by
      cases hss : st s with
      | none => rw [hss] at hchk; simp at hchk
      | some snd =>
        rw [hss] at hchk
        simp only [decide_eq_true_eq] at hchk
        exact ⟨snd, rfl, hchk⟩
    obtain ⟨snd, hss, hsnext⟩ := hS
    simp only [prevsOK, Bool.and_eq_true] at hprevs
    obtain ⟨hpchk, hrestprev⟩ := hprevs
    have hsprev : snd.prev = some b := by
      rw [hss] at hpchk
      simp only [decide_eq_true_eq] at hpchk
      exact hpchk
    have hsparent : snd.parent = some selfKey := by
      obtain ⟨knd, hk1, hk2⟩ := hpar s (by simp)
      have hkv : knd = snd := by
        rw [hk1] at hss
        exact (Option.some.injEq _ _).mp hss
      exact hkv ▸ hk2
    have hbm2 : b ≠ s ∧ b ∉ rest := by
      constructor
      · intro h; exact hbm (by simp [h])
      · intro h; exact hbm (by simp [h])
    have hsm2 : selfKey ≠ s ∧ selfKey ∉ rest := by
      constructor
      · intro h; exact hsm (by simp [h])
      · intro h; exact hsm (by simp [h])
    have hnd2 : s ∉ rest ∧ rest.Nodup := by
      rw [List.nodup_cons] at hnd; exact hnd
    have hnkcases : ∀ nk, snd.next = some nk →
        (nk ∈ rest ∨ tailHead = some nk) := by
      intro nk hnk
      rw [hsnext] at hnk
      cases rest with
      | nil =>
        right; simpa [nextAfter] using hnk
      | cons r rest2 =>
        left
        simp only [nextAfter] at hnk
        injection hnk with h
        subst h
        simp
    have hnkb : ∀ nk, snd.next = some nk → b ≠ nk := by
      intro nk hnk h
      rcases hnkcases nk hnk with hmem | hth
      · apply hbm2.2; rw [h]; exact hmem
      · exact (ht nk hth).2.1 h.symm
    have hnkself : ∀ nk, snd.next = some nk → selfKey ≠ nk := by
      intro nk hnk h
      rcases hnkcases nk hnk with hmem | hth
      · apply hsm2.2; rw [h]; exact hmem
      · exact (ht nk hth).2.2 h.symm
    have hstep : deleteLoop st (some s) (s :: rest).length acc
        = deleteLoop (removeFromParentB st s) (getNextSib st s)
          rest.length (s :: acc) := by
      simp [deleteLoop, hss]
    have hnxt : rest = [] ∨ getNextSib st s = rest.head? := by
      cases rest with
      | nil => left; rfl
      | cons r rest2 =>
        right
        have h1 : snd.next = some r := hsnext
        simp only [nextsOK, Bool.and_eq_true] at hrestnext
        have hrpres : ∃ rnd, st r = some rnd := by
          cases hsr : st r with
          | none => rw [hsr] at hrestnext; simp at hrestnext
          | some rnd => exact ⟨rnd, rfl⟩
        obtain ⟨rnd, hsr⟩ := hrpres
        simp [getNextSib, getSibBy, hss, h1, hsr]
    have hself1 : ((removeFromParentB st s) selfKey).isSome = true := by
      rw [removeFromParentB_isSome]; exact hself
    have hb1 : (removeFromParentB st s) b
        = some { bnd with next := snd.next } := by
      rw [removeFromParentB_at_b st s b selfKey snd hss hsparent hsprev
        hself hbm2.1 hbs hnkb]
      rw [hb]
      rfl
    have hbn1 : ({ bnd with next := snd.next } : BNode).next
        = nextAfter rest tailHead := hsnext
    have hnexts1 : nextsOK (removeFromParentB st s) rest tailHead
        = true := by
      have hprj : ∀ j ∈ rest, ((removeFromParentB st s) j).map
          (fun x => x.next) = (st j).map (fun x => x.next) := by
        intro j hj
        apply removeFromParentB_next_proj st s b selfKey snd hss hsparent
          hsprev hself j
        · intro h; apply hnd2.1; rw [← h]; exact hj
        · intro h; apply hbm2.2; rw [← h]; exact hj
      rw [nextsOK_congr st _ rest tailHead hprj]
      exact hrestnext
    have hprevs1 : prevsOK (removeFromParentB st s) (some b) rest
        = true := by
      cases rest with
      | nil => rfl
      | cons r rest2 =>
        have h1 : snd.next = some r := hsnext
        have hr_ne_s : r ≠ s := by
          intro h; apply hnd2.1; rw [← h]; exact List.mem_cons_self r rest2
        have hr_ne_self : r ≠ selfKey := by
          intro h; apply hsm2.2; rw [← h]; exact List.mem_cons_self r rest2
        have hr_ne_b : r ≠ b := by
          intro h; apply hbm2.2; rw [← h]; exact List.mem_cons_self r rest2
        have hrnodup : r ∉ rest2 ∧ rest2.Nodup := by
          rw [List.nodup_cons] at hnd2
          exact ⟨hnd2.2.1, hnd2.2.2⟩
        have hat := removeFromParentB_at_nk st s b selfKey snd hss
          hsparent hsprev hself r h1 hr_ne_s hr_ne_self hr_ne_b
        simp only [prevsOK, Bool.and_eq_true]
        constructor
        · simp only [nextsOK, Bool.and_eq_true] at hrestnext
          cases hsr : st r with
          | none => rw [hsr] at hrestnext; simp at hrestnext
          | some rnd =>
            rw [hat, hsr]
            simp
        · have hprj : ∀ j ∈ rest2, ((removeFromParentB st s) j).map
              (fun x => x.prev) = (st j).map (fun x => x.prev) := by
            intro j hj
            apply removeFromParentB_prev_proj st s b selfKey snd hss
              hsparent hsprev hself j
            · intro h; apply hnd2.1; rw [← h]; simp [hj]
            · intro nk hnk h
              have : nk = r := by
                rw [h1] at hnk
                exact ((Option.some.injEq _ _).mp hnk).symm
              apply hrnodup.1
              rw [← this, ← h]
              exact hj
          rw [prevsOK_congr st _ rest2 (some r) hprj]
          simp only [prevsOK, Bool.and_eq_true] at hrestprev
          exact hrestprev.2
    have hpar1 : ∀ k ∈ rest, ∃ knd, (removeFromParentB st s) k = some knd
        ∧ knd.parent = some selfKey := by
      intro k hk
      obtain ⟨knd, hk1, hk2⟩ := hpar k (by simp [hk])
      have hprj := removeFromParentB_parent_proj st s b selfKey snd hss
        hsparent hsprev hself k
        (by intro h; apply hnd2.1; rw [← h]; exact hk)
      rw [hk1] at hprj
      cases h1 : (removeFromParentB st s) k with
      | none => rw [h1] at hprj; simp at hprj
      | some knd' =>
        rw [h1] at hprj
        simp only [Option.map_some'] at hprj
        rw [Option.some.injEq] at hprj
        exact ⟨knd', rfl, by rw [hprj]; exact hk2⟩
    have ht1 : ∀ t, tailHead = some t →
        t ∉ rest ∧ t ≠ b ∧ t ≠ selfKey := by
      intro t hth
      obtain ⟨h1, h2, h3⟩ := ht t hth
      exact ⟨fun hh => h1 (by simp [hh]), h2, h3⟩
    obtain ⟨stD, hrun, hDb, hframe, hpres⟩ :=
      ih (removeFromParentB st s) { bnd with next := snd.next }
        (getNextSib st s) (s :: acc) hb1 hself1 hbn1 hnexts1 hprevs1 hpar1
        hnd2.2 hbm2.2 hsm2.2 hbs ht1 hnxt
    refine ⟨stD, ?_, ?_, ?_, ?_⟩
    · rw [hstep, hrun]
      simp
    · exact hDb
    · intro j hj1 hj2 hj3 hj4
      have hj1r : j ∉ rest := fun h => hj1 (by simp [h])
      have hjs : j ≠ s := fun h => hj1 (by simp [h])
      have hjnk : ∀ nk, snd.next = some nk → j ≠ nk := by
        intro nk hnk h
        rcases hnkcases nk hnk with hmem | hth
        · apply hj1r; rw [h]; exact hmem
        · exact hj4 nk hth h
      rw [hframe j hj1r hj2 hj3 hj4]
      exact removeFromParentB_frame st s b selfKey snd hss hsparent hsprev
        hself j hj2 hjs hj3 hjnk
    · intro j
      rw [hpres j, removeFromParentB_isSome]

end BL

namespace BL

/-- Characterization of the insertion loop over fresh, parentless,
pairwise-distinct nodes with a surviving previous sibling `pk`: it
succeeds, returns the last inserted node as `prevNode`, leaves
`nodeBeforeRange` and `newSize` unchanged, appends exactly the inserted
keys, and touches no other key except the `__nextBlock` write on `pk`. -/
theorem insertLoop_spec (selfKey : Key) :
    ∀ (ks : List Key) (st : BState) (pk : Key) (nbr : Option Key)
      (ns : Int) (acc : List Key),
      ks.Nodup → selfKey ∉ ks → pk ∉ ks →
      (∀ k ∈ ks, ∃ knd, st k = some knd ∧ knd.parent = none) →
      ∃ stI, insertLoop st selfKey (some pk) nbr ns acc ks
          = .ok (stI, some ((ks.getLast?).getD pk), nbr, ns,
            acc.reverse ++ ks)
        ∧ (∀ j, j ∉ ks → j ≠ pk → stI j = st j)
        ∧ (∃ x, stI pk = (st pk).map (fun nd => { nd with nextBlock := x }))
        ∧ (∀ j, (stI j).isSome = (st j).isSome) := by
  intro ks
  induction ks with
  | nil =>
    intro st pk nbr ns acc _ _ _ _
    refine ⟨st, by simp [insertLoop], fun j _ _ => rfl, ?_, fun j => rfl⟩
    cases hpk : st pk with
    | none => exact ⟨none, rfl⟩
    | some nd => exact ⟨nd.nextBlock, rfl⟩
  | cons k rest ih =>
    intro st pk nbr ns acc hnd hsm hpm hpar
    have hkpk : k ≠ pk := fun h => hpm (by simp [h])
    have hkself : k ≠ selfKey := fun h => hsm (by simp [h])
    obtain ⟨knd, hk1, hk2⟩ := hpar k (by simp)
    have hnd2 : k ∉ rest ∧ rest.Nodup := by
      rw [List.nodup_cons] at hnd; exact hnd
    have hsm2 : selfKey ∉ rest := fun h => hsm (by simp [h])
    have hpm2 : pk ∉ rest := fun h => hpm (by simp [h])
    have hstep : insertLoop st selfKey (some pk) nbr ns acc (k :: rest)
        = insertLoop
            (upd (upd (upd st pk (fun x => { x with nextBlock := some k }))
              k (fun x => { x with prev := some pk }))
              k (fun x => { x with parent := some selfKey }))
            selfKey (some k) nbr ns (k :: acc) rest := by
      simp [insertLoop, hk1, hk2, hkpk, hkself,
        removeFromParentB_noparent st k knd hk1 hk2]
    have hparents1 : ∀ j ∈ rest, ∃ jnd,
        (upd (upd (upd st pk (fun x => { x with nextBlock := some k }))
          k (fun x => { x with prev := some pk }))
          k (fun x => { x with parent := some selfKey })) j = some jnd
        ∧ jnd.parent = none := by
      intro j hj
      have hjk : j ≠ k := by
        intro h; apply hnd2.1; rw [← h]; exact hj
      have hjpk : j ≠ pk := by
        intro h; apply hpm2; rw [← h]; exact hj
      rw [upd_ne _ _ _ _ hjk, upd_ne _ _ _ _ hjk, upd_ne _ _ _ _ hjpk]
      exact hpar j (by simp [hj])
    obtain ⟨stI, hrun, hframe, hmap, hpres⟩ :=
      ih _ k nbr ns (k :: acc) hnd2.2 hsm2 hnd2.1 hparents1
    refine ⟨stI, ?_, ?_, ?_, ?_⟩
    · rw [hstep, hrun]
      have hlast : (((k :: rest).getLast?).getD pk : Key)
          = (rest.getLast?).getD k := by
        cases rest with
        | nil => rfl
        | cons r rest2 =>
          rcases h : (r :: rest2).getLast? with _ | v
          · exact absurd (List.getLast?_eq_none_iff.mp h) (by simp)
          · simp [List.getLast?_cons_cons, h]
      rw [hlast]
      simp
    · intro j hj1 hj2
      have hj1r : j ∉ rest := fun h => hj1 (by simp [h])
      have hjk : j ≠ k := fun h => hj1 (by simp [h])
      rw [hframe j hj1r hjk]
      rw [upd_ne _ _ _ _ hjk, upd_ne _ _ _ _ hjk, upd_ne _ _ _ _ hj2]
    · refine ⟨some k, ?_⟩
      have hpkk : pk ≠ k := fun h => hkpk h.symm
      rw [hframe pk hpm2 hpkk]
      rw [upd_ne _ _ _ _ hpkk, upd_ne _ _ _ _ hpkk, upd_self]
    · intro j
      rw [hpres j]
      simp [upd_isSome]

end BL

namespace BL

theorem prevsOK_head (st : BState) (p : Option Key) (l : List Key)
    (a : Key) (h : prevsOK st p l = true) (ha : l.head? = some a) :
    ∃ nd0, st a = some nd0 ∧ nd0.prev = p := by
  cases l with
  | nil => simp at ha
  | cons x xs =>
    simp only [List.head?_cons, Option.some.injEq] at ha
    subst ha
    simp only [prevsOK, Bool.and_eq_true] at h
    cases hsa : st x with
    | none => rw [hsa] at h; simp at h
    | some nd0 =>
      rw [hsa] at h
      simp only [decide_eq_true_eq] at h
      exact ⟨nd0, rfl, h.1⟩

theorem nextsOK_head (st : BState) (l : List Key) (t : Option Key)
    (a : Key) (h : nextsOK st l t = true) (ha : l.head? = some a) :
    ∃ nd0, st a = some nd0 := by
  cases l with
  | nil => simp at ha
  | cons x xs =>
    simp only [List.head?_cons, Option.some.injEq] at ha
    subst ha
    simp only [nextsOK, Bool.and_eq_true] at h
    cases hsa : st x with
    | none => rw [hsa] at h; simp at h
    | some nd0 => exact ⟨nd0, rfl⟩

theorem upd_parent_bs (st : BState) (k j : Key) (v : Int) :
    ((upd st k (fun x => { x with blocksSize := v })) j).map
      (fun x => x.parent) = (st j).map (fun x => x.parent) :=
  upd_map_proj (fun x => x.parent) (fun x => { x with blocksSize := v }) (fun _ => rfl) st k j

theorem upd_parent_nextw (st : BState) (k j : Key) (v : Option Key) :
    ((upd st k (fun x => { x with next := v })) j).map
      (fun x => x.parent) = (st j).map (fun x => x.parent) :=
  upd_map_proj (fun x => x.parent) (fun x => { x with next := v }) (fun _ => rfl) st k j

theorem upd_parent_prevw (st : BState) (k j : Key) (v : Option Key) :
    ((upd st k (fun x => { x with prev := v })) j).map
      (fun x => x.parent) = (st j).map (fun x => x.parent) :=
  upd_map_proj (fun x => x.parent) (fun x => { x with prev := v }) (fun _ => rfl) st k j

theorem upd_parent_lastbw (st : BState) (k j : Key) (v : Option Key) :
    ((upd st k (fun x => { x with lastBlock := v })) j).map
      (fun x => x.parent) = (st j).map (fun x => x.parent) :=
  upd_map_proj (fun x => x.parent) (fun x => { x with lastBlock := v }) (fun _ => rfl) st k j

end BL

namespace BL

theorem exists_of_parent_proj (o : Option BNode) (p : Option Key)
    (h : o.map (fun x => x.parent) = some p) :
    ∃ nd2, o = some nd2 ∧ nd2.parent = p := by
  cases o with
  | none => simp at h
  | some v =>
    refine ⟨v, rfl, ?_⟩
    simpa using h

end BL

/-- C3: a deleting splice with a range selection relocates every removed
selection point onto the node immediately before the deleted range, which
stays present and attached to the spliced block.  The state is assumed
well-formed (`BL.wfBlockList`), the range `[start, start+deleteCount)` is
in bounds with `start ≥ 1` and `deleteCount ≥ 1`, `b` is the child block
just before the range, and the inserted nodes are distinct, detached and
disjoint from the tree.  The run succeeds; it removes exactly the range
segment and inserts exactly `nodesToInsert`; `nodeBeforeRange` is `b`,
which is not removed and keeps `__parent = selfKey` in the final state;
and whenever the anchor (resp. focus) is flagged removed — some ancestor
in the removed set and not the inserted set — the final selection's
anchor (resp. focus) points at `b`.  (`movePoint` is modelled from the
spec, §4.3.) -/
theorem c3_selection_relocation
    (st : BL.BState) (fuel selfKey start dc : Nat) (L : List BL.Key)
    (inserts : List BL.Key) (s : BL.Sel) (b : BL.Key)
    (hwf : BL.wfBlockList st selfKey L)
    (hstart : 1 ≤ start) (hdc : 1 ≤ dc) (hrange : start + dc ≤ L.length)
    (hb : L[start - 1]? = some b)
    (hins : inserts.Nodup) (hselfins : selfKey ∉ inserts)
    (hdisj : ∀ k ∈ inserts, k ∉ L)
    (hinsfree : ∀ k ∈ inserts, ∃ knd, st k = some knd ∧ knd.parent = none) :
    ∃ r, BL.spliceChildBlocks st fuel selfKey start dc inserts (some s)
        = .ok r
      ∧ r.removedKeys = (L.drop start).take dc
      ∧ r.insertedKeys = inserts
      ∧ r.nodeBeforeRange = some b
      ∧ b ∉ r.removedKeys
      ∧ (∃ nd2, r.st b = some nd2 ∧ nd2.parent = some selfKey)
      ∧ (r.anchorRemoved = true →
          ∃ s2, r.sel = some s2 ∧ s2.anchor.key = b)
      ∧ (r.focusRemoved = true →
          ∃ s2, r.sel = some s2 ∧ s2.focus.key = b) := by
  obtain ⟨nd, hself, hN, hP, hprevsAll, hsz, hlastB, hnodupL, hselfL,
    hparL⟩ := hwf
  have hstartlt : start < L.length := by omega
  have hidx : ∀ (x : BL.Key) (i j : Nat), i < L.length → L[i]? = some x →
      L[j]? = some x → i = j := by
    intro x i j hi h1 h2
    exact List.getElem?_inj hi hnodupL (h1.trans h2.symm)
  have hseglen : ((L.drop start).take dc).length = dc := by
    rw [List.length_take, List.length_drop]
    omega
  have hsegidx : ∀ i, i < dc →
      ((L.drop start).take dc)[i]? = L[start + i]? := by
    intro i hi
    rw [List.getElem?_take_of_lt hi, BL.getq_drop]
  have hsegmem : ∀ x ∈ (L.drop start).take dc,
      ∃ i, i < dc ∧ L[start + i]? = some x := by
    intro x hx
    obtain ⟨i, hxi⟩ := List.mem_iff_getElem?.mp hx
    have hilt : i < dc := by
      by_contra hcon
      have h5 : ((L.drop start).take dc)[i]? = none :=
        List.getElem?_eq_none (by rw [hseglen]; omega)
      rw [h5] at hxi
      exact absurd hxi (by simp)
    exact ⟨i, hilt, by rw [← hsegidx i hilt]; exact hxi⟩
  have hsegsubL : ∀ x ∈ (L.drop start).take dc, x ∈ L := by
    intro x hx
    exact ((List.take_sublist dc (L.drop start)).trans
      (List.drop_sublist start L)).subset hx
  have hbmem : b ∈ L := List.mem_iff_getElem?.mpr ⟨start - 1, hb⟩
  have hbself2 : b ≠ selfKey := by
    intro h; apply hselfL; rw [← h]; exact hbmem
  have hbseg : b ∉ (L.drop start).take dc := by
    intro hx
    obtain ⟨i, hilt, hLi⟩ := hsegmem b hx
    have := hidx b (start - 1) (start + i) (by omega) hb hLi
    omega
  have hthfact : ∀ t, L[start + dc]? = some t →
      t ∈ L ∧ t ∉ (L.drop start).take dc ∧ t ≠ b ∧ t ≠ selfKey := by
    intro t hth2
    have hlt : start + dc < L.length := by
      obtain ⟨h5, _⟩ := List.getElem?_eq_some_iff.mp hth2
      exact h5
    have htmem : t ∈ L := List.mem_iff_getElem?.mpr ⟨start + dc, hth2⟩
    refine ⟨htmem, ?_, ?_, ?_⟩
    · intro hx
      obtain ⟨i, hilt, hLi⟩ := hsegmem t hx
      have := hidx t (start + dc) (start + i) hlt hth2 hLi
      omega
    · intro h
      have hb2 : L[start - 1]? = some t := by rw [h]; exact hb
      have := hidx t (start + dc) (start - 1) hlt hth2 hb2
      omega
    · intro h; apply hselfL; rw [← h]; exact htmem
  have h2s : start - 1 + 1 = start := by omega
  have htake : L.take start = L.take (start - 1) ++ [b] := by
    conv_lhs => rw [← h2s]
    rw [List.take_succ, hb]
    rfl
  have hdropsplit : (L.drop start).take dc ++ L.drop (start + dc)
      = L.drop start := by
    have h3 := List.take_append_drop dc (L.drop start)
    rw [List.drop_drop] at h3
    exact h3
  have hLsplit : L = L.take start
      ++ ((L.drop start).take dc ++ L.drop (start + dc)) := by
    rw [hdropsplit, List.take_append_drop]
  have hth : BL.nextAfter (L.drop (start + dc)) none = L[start + dc]? := by
    cases hafter : L.drop (start + dc) with
    | nil =>
      have h6 : L.length ≤ start + dc := by
        have h7 := congrArg List.length hafter
        rw [List.length_drop] at h7
        simp at h7
        omega
      simp [BL.nextAfter, List.getElem?_eq_none h6]
    | cons a2 rest2 =>
      have h0 : (L.drop (start + dc))[0]? = some a2 := by
        rw [hafter]; simp
      rw [BL.getq_drop] at h0
      simp only [Nat.add_zero] at h0
      simp [BL.nextAfter, h0]
  have hnextsL : BL.nextsOK st L none = true :=
    BL.chainIsBy_nextsOK st L nd.firstBlock hN
  have h2 : BL.nextsOK st (L.take start
      ++ ((L.drop start).take dc ++ L.drop (start + dc))) none = true := by
    rw [← hLsplit]; exact hnextsL
  rw [BL.nextsOK_append, Bool.and_eq_true] at h2
  obtain ⟨h2a, h2b⟩ := h2
  rw [BL.nextsOK_append, Bool.and_eq_true] at h2b
  obtain ⟨h2seg, _⟩ := h2b
  rw [hth] at h2seg
  rw [htake, BL.nextsOK_append, Bool.and_eq_true] at h2a
  obtain ⟨_, h2bb⟩ := h2a
  have hbx : ∃ bnd, st b = some bnd
      ∧ bnd.next = BL.nextAfter ((L.drop start).take dc)
        (L[start + dc]?) := by
    simp only [BL.nextsOK, Bool.and_eq_true] at h2bb
    obtain ⟨hchk, _⟩ := h2bb
    cases hsb : st b with
    | none => rw [hsb] at hchk; simp at hchk
    | some bnd =>
      rw [hsb] at hchk
      simp only [decide_eq_true_eq, BL.nextAfter_nil] at hchk
      refine ⟨bnd, rfl, ?_⟩
      rw [hchk, BL.nextAfter_append, hth]
  obtain ⟨bnd, hbst, hbnext⟩ := hbx
  have h3 : BL.prevsOK st none (L.take start
      ++ ((L.drop start).take dc ++ L.drop (start + dc))) = true := by
    rw [← hLsplit]; exact hprevsAll
  rw [BL.prevsOK_append, Bool.and_eq_true] at h3
  obtain ⟨_, h3b⟩ := h3
  have hlf : BL.lastFrom (L.take start) none = some b := by
    rw [htake]
    simp [BL.lastFrom, List.getLast?_concat]
  rw [hlf, BL.prevsOK_append, Bool.and_eq_true] at h3b
  obtain ⟨h3seg, _⟩ := h3b
  have hs0x : ∃ s0, L[start]? = some s0 := by
    rcases h4 : L[start]? with _ | s0
    · rw [List.getElem?_eq_none_iff] at h4; omega
    · exact ⟨s0, rfl⟩
  obtain ⟨s0, hs0⟩ := hs0x
  have hseghead : ((L.drop start).take dc).head? = some s0 := by
    rw [List.head?_eq_getElem?, hsegidx 0 (by omega)]
    simpa using hs0
  have hsegpar : ∀ k ∈ (L.drop start).take dc,
      ∃ knd, st k = some knd ∧ knd.parent = some selfKey :=
    fun k hk => hparL k (hsegsubL k hk)
  have hsegnd : ((L.drop start).take dc).Nodup :=
    hnodupL.sublist ((List.take_sublist dc (L.drop start)).trans
      (List.drop_sublist start L))
  have hsegself : selfKey ∉ (L.drop start).take dc :=
    fun h => hselfL (hsegsubL _ h)
  have hsegtail : ∀ t, L[start + dc]? = some t →
      t ∉ (L.drop start).take dc ∧ t ≠ b ∧ t ≠ selfKey := by
    intro t ht2
    obtain ⟨_, hx2, hx3, hx4⟩ := hthfact t ht2
    exact ⟨hx2, hx3, hx4⟩
  have hselfpres : (st selfKey).isSome = true := by rw [hself]; rfl
  obtain ⟨stD, hrunD, hDb, hframeD, hpresD⟩ :=
    BL.deleteLoop_spec selfKey b (L[start + dc]?) ((L.drop start).take dc)
      st bnd (some s0) [] hbst hselfpres hbnext h2seg h3seg hsegpar hsegnd
      hbseg hsegself hbself2 hsegtail (Or.inr hseghead.symm)
  rw [hseglen] at hrunD
  have hrunD2 : BL.deleteLoop st (some s0) dc []
      = .ok (stD, (L.drop start).take dc) := by simpa using hrunD
  obtain ⟨s0nd, hs0st⟩ := BL.nextsOK_head st _ _ s0 h2seg hseghead
  have hbnext2 : bnd.next = some s0 := by
    rw [hbnext]
    cases hsegc : (L.drop start).take dc with
    | nil => rw [hsegc] at hseghead; simp at hseghead
    | cons y ys =>
      rw [hsegc] at hseghead
      simp only [List.head?_cons, Option.some.injEq] at hseghead
      simp [BL.nextAfter, hseghead]
  have hNextSibB : BL.getNextSib st b = some s0 := by
    simp [BL.getNextSib, BL.getSibBy, hbst, hbnext2, hs0st]
  obtain ⟨s0nd2, hs0st2, hs0pv⟩ :=
    BL.prevsOK_head st (some b) _ s0 h3seg hseghead
  have hprevS0 : BL.getPrevSib st s0 = some b := by
    simp [BL.getPrevSib, BL.getSibBy, hs0st2, hs0pv, hbst]
  have hAt := BL.getChildBlockAtIndex_wf st selfKey L nd hself hN hP hsz
  have hAtStart : BL.getChildBlockAtIndex st selfKey start = some s0 := by
    rw [hAt start]; exact hs0
  have hAfter : BL.getChildBlockAtIndex st selfKey (start + dc)
      = L[start + dc]? := hAt (start + dc)
  have hstartne : start ≠ 0 := by omega
  have hstartlen : ¬((start : Int) = nd.blocksSize) := by
    rw [hsz]
    intro hcon
    omega
  have hbnotins : b ∉ inserts := fun h => hdisj b h hbmem
  have hinsD : ∀ k ∈ inserts, ∃ knd, stD k = some knd
      ∧ knd.parent = none := by
    intro k hk
    have hkL : k ∉ L := hdisj k hk
    rw [hframeD k (fun h => hkL (hsegsubL k h))
      (fun h => hkL (by rw [h]; exact hbmem))
      (fun h => hselfins (by rw [← h]; exact hk))
      (fun t ht2 h => hkL (by rw [h]; exact (hthfact t ht2).1))]
    exact hinsfree k hk
  obtain ⟨stI, hrunI, hframeI, hmapI, hpresI⟩ :=
    BL.insertLoop_spec selfKey inserts stD b (some b)
      (nd.blocksSize - (dc : Int) + (inserts.length : Int)) [] hins
      hselfins hbnotins hinsD
  have hrunI2 : BL.insertLoop stD selfKey (some b) (some b)
      (nd.blocksSize - (dc : Int) + (inserts.length : Int)) [] inserts
      = .ok (stI, some ((inserts.getLast?).getD b), some b,
        nd.blocksSize - (dc : Int) + (inserts.length : Int), inserts) := by
    simpa using hrunI
  have hsegnotempty : ¬(((L.drop start).take dc).isEmpty = true) := by
    intro h
    rw [List.isEmpty_iff] at h
    have h5 := congrArg List.length h
    rw [hseglen] at h5
    simp at h5
    omega
  have hbpar : bnd.parent = some selfKey := by
    obtain ⟨bndP, hbstP, hbparP⟩ := hparL b hbmem
    rw [hbst] at hbstP
    have h6 := (Option.some.injEq _ _).mp hbstP
    rw [h6]; exact hbparP
  have hstIb : (stI b).map (fun x => x.parent) = some bnd.parent := by
    obtain ⟨x, hx⟩ := hmapI
    rw [hx, hDb]
    rfl
  set PKL := (inserts.getLast?).getD b with hPKL
  set ST3 := (if ((start : Int) + (dc : Int) = nd.blocksSize) then
      BL.upd (BL.upd stI PKL (fun x => { x with next := none })) selfKey
        (fun x => { x with lastBlock := some PKL })
    else
      match L[start + dc]? with
      | some ak =>
        BL.upd (BL.upd stI ak (fun x => { x with prev := some PKL })) PKL
          (fun x => { x with next := some ak })
      | none => stI) with hST3
  set ST4 := BL.upd ST3 selfKey (fun x =>
    { x with blocksSize := nd.blocksSize - (dc : Int) + (inserts.length : Int) }) with hST4
  set AR := BL.isPointRemoved ST4 fuel s.anchor.key
    ((L.drop start).take dc) inserts with hARdef
  set S1 := (if AR then
      { s with anchor := BL.movePoint ST4 selfKey (some b) (L[start + dc]?) s.anchor }
    else s) with hS1
  set FR := BL.isPointRemoved ST4 fuel S1.focus.key
    ((L.drop start).take dc) inserts with hFRdef
  set S2 := (if FR then
      { S1 with focus := BL.movePoint ST4 selfKey (some b) (L[start + dc]?) S1.focus }
    else S1) with hS2
  refine ⟨⟨ST4, some S2, (L.drop start).take dc, inserts, some b,
    L[start + dc]?, AR, FR⟩, ?_, rfl, rfl, rfl, hbseg, ?_, ?_, ?_⟩
  · simp only [BL.spliceChildBlocks, hself]
    rw [if_pos hstartne, if_neg hstartlen]
    simp only [hAtStart, hAfter, hprevS0]
    rw [if_pos (by omega : dc > 0)]
    simp only [hNextSibB, hrunD2, hrunI2]
    rw [if_neg hsegnotempty]
  · apply BL.exists_of_parent_proj
    rw [hST4, BL.upd_parent_bs, hST3]
    by_cases hC : ((start : Int) + (dc : Int) = nd.blocksSize)
    · rw [if_pos hC, BL.upd_parent_lastbw, BL.upd_parent_nextw, hstIb,
        hbpar]
    · rw [if_neg hC]
      cases hak : L[start + dc]? with
      | none =>
        show (stI b).map (fun x => x.parent) = some (some selfKey)
        rw [hstIb, hbpar]
      | some ak =>
        show ((BL.upd (BL.upd stI ak (fun x => { x with prev := some PKL }))
          PKL (fun x => { x with next := some ak })) b).map
          (fun x => x.parent) = some (some selfKey)
        rw [BL.upd_parent_nextw, BL.upd_parent_prevw, hstIb, hbpar]
  · intro h
    refine ⟨S2, rfl, ?_⟩
    rw [hS2]
    by_cases h2 : FR = true
    · rw [if_pos h2]
      show S1.anchor.key = b
      rw [hS1, if_pos h]
      rfl
    · rw [if_neg h2]
      rw [hS1, if_pos h]
      rfl
  · intro h
    refine ⟨S2, rfl, ?_⟩
    rw [hS2, if_pos h]
    rfl

/-- A block (key 0) with child blocks 1, 2, 3 for the C3 witness. -/
def c3State : BL.BState := fun k =>
  if k = 0 then
    some { firstBlock := some 1, lastBlock := some 3, blocksSize := 3 }
  else if k = 1 then some { parent := some 0, next := some 2 }
  else if k = 2 then some { parent := some 0, prev := some 1, next := some 3 }
  else if k = 3 then some { parent := some 0, prev := some 2 }
  else none

theorem c3State_wf : BL.wfBlockList c3State 0 [1, 2, 3] := by
  refine ⟨{ firstBlock := some 1, lastBlock := some 3, blocksSize := 3 },
    rfl, ?_, ?_, ?_, ?_, ?_, ?_, ?_, ?_⟩
  · decide
  · decide
  · decide
  · decide
  · decide
  · decide
  · decide
  · intro k hk
    fin_cases hk
    · exact ⟨_, rfl, rfl⟩
    · exact ⟨_, rfl, rfl⟩
    · exact ⟨_, rfl, rfl⟩

/-- Closed instance for `c3_selection_relocation`: deleting child block 2
of block 0 (start 1, deleteCount 1, nothing inserted) while both
selection points sit on node 2. -/
theorem c3_selection_relocation_witness :
    BL.wfBlockList c3State 0 [1, 2, 3]
    ∧ (∃ r, BL.spliceChildBlocks c3State 9 0 1 1 []
          (some ⟨⟨2, 0⟩, ⟨2, 0⟩⟩) = .ok r
        ∧ r.removedKeys = (([1, 2, 3] : List BL.Key).drop 1).take 1
        ∧ r.insertedKeys = []
        ∧ r.nodeBeforeRange = some 1
        ∧ 1 ∉ r.removedKeys
        ∧ (∃ nd2, r.st 1 = some nd2 ∧ nd2.parent = some 0)
        ∧ (r.anchorRemoved = true →
            ∃ s2, r.sel = some s2 ∧ s2.anchor.key = 1)
        ∧ (r.focusRemoved = true →
            ∃ s2, r.sel = some s2 ∧ s2.focus.key = 1)) :=
  ⟨c3State_wf,
    c3_selection_relocation c3State 9 0 1 1 [1, 2, 3] [] ⟨⟨2, 0⟩, ⟨2, 0⟩⟩ 1
      c3State_wf (by decide) (by decide) (by decide) (by decide)
      (by decide) (by decide) (by intro k hk; cases hk)
      (by intro k hk; cases hk)⟩
